import Mathlib

/-!
Verification development for the `mddiff` package: a shallow embedding of
`src/mddiff/normalize.py`, `src/mddiff/diff.py`, `src/mddiff/inline.py` and
`src/mddiff/models.py`, together with the runtime primitives they rely on
(Python string methods, `difflib.SequenceMatcher`, UTF-8 decoding, SHA-256).

Strings are modelled as Lean `String`/`List Char`.  Python `float` ratio
arithmetic is modelled with exact fractions over `Nat` (compared by
cross-multiplication); the threshold constants 0.2/0.3/0.35 are the
corresponding fractions.  Loops whose Python counterparts are unbounded
`while` loops are given explicit fuel chosen (and documented per
definition) so that it is never exhausted; every definition is plain
structural recursion and evaluates inside the kernel.  Python's Unicode-aware
character classes are modelled on their ASCII core plus the common Unicode
whitespace code points; every concrete input exercised below is ASCII.
-/

namespace Mddiff

/-! ## Python string primitives -/

/-- Python whitespace (`str.strip`, `str.isspace`, regex `\s`): ASCII
whitespace, the C1 separators, and the common Unicode space code points. -/
def pyIsSpace (c : Char) : Bool :=
  c = ' ' || c = '\t' || c = '\n' || c = '\r' || c = '\x0b' || c = '\x0c' ||
  c = '\x1c' || c = '\x1d' || c = '\x1e' || c = '\x1f' || c = '\x85' ||
  c = '\xa0' || c = ' ' ||
  (0x2000 ≤ c.toNat && c.toNat ≤ 0x200a) ||
  c = ' ' || c = ' ' || c = ' ' || c = ' ' || c = '　'

def lstripL (l : List Char) : List Char := l.dropWhile pyIsSpace

def rstripL (l : List Char) : List Char := (l.reverse.dropWhile pyIsSpace).reverse

def stripL (l : List Char) : List Char := rstripL (lstripL l)

/-- Python `str.lstrip()`. -/
def pyLstrip (s : String) : String := ⟨lstripL s.data⟩

/-- Python `str.rstrip()`. -/
def pyRstrip (s : String) : String := ⟨rstripL s.data⟩

/-- Python `str.strip()`. -/
def pyStrip (s : String) : String := ⟨stripL s.data⟩

/-- Python `str.lstrip("﻿")`: drop every leading BOM character. -/
def pyLstripBom (s : String) : String := ⟨s.data.dropWhile (· = '﻿')⟩

/-- Python `str.rstrip("\n")`: drop every trailing newline character. -/
def pyRstripNewlines (s : String) : String :=
  ⟨(s.data.reverse.dropWhile (· = '\n')).reverse⟩

/-- Leftmost, non-overlapping substring replacement, as Python
`str.replace(old, new)` for a non-empty `old`.  The fuel argument bounds
the number of steps; every step consumes at least one character, so the
`l.length + 1` supplied by `replaceL` is never exhausted. -/
def replaceGo (pat repl : List Char) : Nat → List Char → List Char
  | 0, l => l
  | _ + 1, [] => []
  | fuel + 1, c :: rest =>
    if pat ≠ [] ∧ pat.isPrefixOf (c :: rest) then
      repl ++ replaceGo pat repl fuel ((c :: rest).drop pat.length)
    else
      c :: replaceGo pat repl fuel rest

def replaceL (pat repl l : List Char) : List Char :=
  replaceGo pat repl (l.length + 1) l

def pyReplace (s pat repl : String) : String := ⟨replaceL pat.data repl.data s.data⟩

/-- Characters that terminate a line for Python `str.splitlines`
(other than the two-character sequence `"\r\n"`, handled separately). -/
def isLineBreakChar (c : Char) : Bool :=
  c = '\n' || c = '\r' || c = '\x0b' || c = '\x0c' ||
  c = '\x1c' || c = '\x1d' || c = '\x1e' || c = '\x85' ||
  c = ' ' || c = ' '

def splitlinesGo (cur : List Char) : List Char → List (List Char)
  | [] => if cur.isEmpty then [] else [cur.reverse]
  | '\r' :: '\n' :: rest => cur.reverse :: splitlinesGo [] rest
  | c :: rest =>
    if isLineBreakChar c then cur.reverse :: splitlinesGo [] rest
    else splitlinesGo (c :: cur) rest

/-- Python `str.splitlines()`. -/
def pySplitlines (s : String) : List String :=
  (splitlinesGo [] s.data).map (fun l => ⟨l⟩)

def splitlinesKeepGo (cur : List Char) : List Char → List (List Char)
  | [] => if cur.isEmpty then [] else [cur.reverse]
  | '\r' :: '\n' :: rest => (cur.reverse ++ ['\r', '\n']) :: splitlinesKeepGo [] rest
  | c :: rest =>
    if isLineBreakChar c then (cur.reverse ++ [c]) :: splitlinesKeepGo [] rest
    else splitlinesKeepGo (c :: cur) rest

/-- Python `str.splitlines(keepends=True)`. -/
def pySplitlinesKeepends (s : String) : List String :=
  (splitlinesKeepGo [] s.data).map (fun l => ⟨l⟩)

/-! Data-level wrappers for the `str` operations used below (the
position-based `String` library functions do not reduce inside the
kernel). -/

def sStartsWith (s p : String) : Bool := p.data.isPrefixOf s.data

def sEndsWith (s p : String) : Bool := p.data.reverse.isPrefixOf s.data.reverse

def sDrop (s : String) (n : Nat) : String := ⟨s.data.drop n⟩

def sDropRight (s : String) (n : Nat) : String := ⟨s.data.take (s.data.length - n)⟩

def sContains (s : String) (c : Char) : Bool := s.data.contains c

/-- `"".join(strings)`. -/
def joinList (ls : List String) : String := ⟨(ls.map String.data).join⟩

/-- `sep.join(strings)`. -/
def intercalateS (sep : String) : List String → String
  | [] => ""
  | [x] => x
  | x :: y :: rest => x ++ sep ++ intercalateS sep (y :: rest)

/-- Python `str.split(sep)` for a non-empty separator (every step consumes
at least one character, so the fuel is never exhausted). -/
def splitOnGo (sep : List Char) : Nat → List Char → List Char → List (List Char)
  | 0, acc, _ => [acc.reverse]
  | _ + 1, acc, [] => [acc.reverse]
  | fuel + 1, acc, c :: rest =>
    if sep.isPrefixOf (c :: rest) then
      acc.reverse :: splitOnGo sep fuel [] ((c :: rest).drop sep.length)
    else splitOnGo sep fuel (c :: acc) rest

def splitOnS (s sep : String) : List String :=
  if sep.data.isEmpty then [s]
  else (splitOnGo sep.data (s.data.length + 1) [] s.data).map (fun l => ⟨l⟩)

/-! ## Regex translations (`normalize.py` module-level patterns)

Each Python `re` pattern used by `normalize.py` is translated into a direct
scanner over the line's characters.  All of them are applied to single lines
(the output of `str.splitlines`), so the translated semantics assume no
embedded line breaks.  `\d` and the explicit `[A-Za-z0-9_]` class are ASCII;
`\w` is modelled by its ASCII core. -/

def isSpaceOrTab (c : Char) : Bool := c = ' ' || c = '\t'

def pyIsWord (c : Char) : Bool := c.isAlpha || c.isDigit || c = '_'

/-- `UNORDERED_LIST_RE = ^([ \t]*)([*+-])\s+(.*)$`; returns
(indent, marker, rest). -/
def matchUnorderedList (s : String) : Option (String × Char × String) :=
  let ind := s.data.takeWhile isSpaceOrTab
  match s.data.dropWhile isSpaceOrTab with
  | m :: r2 =>
    if m = '*' || m = '+' || m = '-' then
      let sp := r2.takeWhile pyIsSpace
      let rest := r2.dropWhile pyIsSpace
      if sp.isEmpty then none else some (⟨ind⟩, m, ⟨rest⟩)
    else none
  | [] => none

/-- `ORDERED_LIST_RE = ^([ \t]*)\d+[.)]\s+(.*)$`; returns (indent, rest). -/
def matchOrderedList (s : String) : Option (String × String) :=
  let ind := s.data.takeWhile isSpaceOrTab
  let r1 := s.data.dropWhile isSpaceOrTab
  let digits := r1.takeWhile Char.isDigit
  match r1.dropWhile Char.isDigit with
  | m :: r2 =>
    if digits.isEmpty then none
    else if m = '.' || m = ')' then
      let sp := r2.takeWhile pyIsSpace
      let rest := r2.dropWhile pyIsSpace
      if sp.isEmpty then none else some (⟨ind⟩, ⟨rest⟩)
    else none
  | [] => none

/-- `HORIZONTAL_RULE_COMPACT_RE = ^[*\-_]{3,}$` as a fullmatch test. -/
def hrCompactFullmatch (s : String) : Bool :=
  3 ≤ s.data.length && s.data.all (fun c => c = '*' || c = '-' || c = '_')

structure FenceMatch where
  indent : String
  marker : String
  rest : String
deriving DecidableEq, Repr

/-- `FENCE_RE = ^([ \t]*)(`{3,}|~{3,})(.*)$`; the marker is the maximal run
of backticks (tried first) or tildes, of length at least three. -/
def fenceRe (s : String) : Option FenceMatch :=
  let ind := s.data.takeWhile isSpaceOrTab
  let r1 := s.data.dropWhile isSpaceOrTab
  let bt := r1.takeWhile (· = '`')
  if 3 ≤ bt.length then
    some ⟨⟨ind⟩, ⟨bt⟩, ⟨r1.dropWhile (· = '`')⟩⟩
  else
    let td := r1.takeWhile (· = '~')
    if 3 ≤ td.length then
      some ⟨⟨ind⟩, ⟨td⟩, ⟨r1.dropWhile (· = '~')⟩⟩
    else none

/-- `SETEXT_UNDERLINE_RE = ^ {0,3}(=+|-+)\s*$` as a match test. -/
def setextUnderlineMatch (s : String) : Bool :=
  let sp := s.data.takeWhile (· = ' ')
  let r1 := s.data.dropWhile (· = ' ')
  if 3 < sp.length then false
  else
    match r1 with
    | c :: _ =>
      if c = '=' || c = '-' then
        (r1.dropWhile (· = c)).all pyIsSpace
      else false
    | [] => false

/-- `ATX_HEADING_RE = ^(?P<marker>#{1,6})(?P<body>\s.*)?$`; returns
(marker, optional body group, which starts with its whitespace char). -/
def atxHeadingMatch (s : String) : Option (String × Option String) :=
  let hashes := s.data.takeWhile (· = '#')
  let rest := s.data.dropWhile (· = '#')
  if hashes.isEmpty || 6 < hashes.length then none
  else
    match rest with
    | [] => some (⟨hashes⟩, none)
    | c :: _ => if pyIsSpace c then some (⟨hashes⟩, some ⟨rest⟩) else none

theorem length_dropWhile_le' (p : Char → Bool) (l : List Char) :
    (l.dropWhile p).length ≤ l.length := by
  induction l with
  | nil => simp
  | cons c t ih =>
    simp only [List.dropWhile_cons]
    split
    · exact ih.trans (by simp)
    · simp

theorem length_takeWhile_le' (p : Char → Bool) (l : List Char) :
    (l.takeWhile p).length ≤ l.length := by
  induction l with
  | nil => simp
  | cons c t ih =>
    simp only [List.takeWhile_cons]
    split
    · simpa using ih
    · simp

/-- Consume the optional `:?` of a table-separator cell. -/
def optColon : List Char → List Char
  | [] => []
  | c :: t => if c = ':' then t else c :: t

/-- One `\s*:?[-]+:?\s*` cell of the table-separator pattern; consumes from
the front, returning the remainder on success. -/
def tableSepCell (cs : List Char) : Option (List Char) :=
  if ((optColon (cs.dropWhile pyIsSpace)).takeWhile (· = '-')).isEmpty then none
  else
    some ((optColon ((optColon (cs.dropWhile pyIsSpace)).dropWhile (· = '-'))).dropWhile
      pyIsSpace)

/-- The `(\|\s*:?[-]+:?\s*)+` repetition: consume as many pipe-prefixed
cells as possible, returning the remainder and the number consumed.  Each
rep consumes at least its pipe, so the fuel supplied by `tableSepMatch`
(input length plus one) is never exhausted. -/
def tableSepReps : Nat → List Char → Nat → List Char × Nat
  | 0, cs, n => (cs, n)
  | fuel + 1, cs, n =>
    match cs with
    | '|' :: t =>
      (match tableSepCell t with
       | some rest => tableSepReps fuel rest (n + 1)
       | none => ('|' :: t, n))
    | _ => (cs, n)

/-- `TABLE_SEPARATOR_RE = ^\s*\|?\s*:?[-]+:?\s*(\|\s*:?[-]+:?\s*)+\|?\s*$`
as a match test (the pattern is anchored on both sides). -/
def tableSepMatch (s : String) : Bool :=
  let c1 := s.data.dropWhile pyIsSpace
  let c2 := match c1 with
    | '|' :: t => t
    | _ => c1
  match tableSepCell c2 with
  | none => false
  | some c3 =>
    let (c4, n) := tableSepReps (c3.length + 1) c3 0
    if n = 0 then false
    else
      let c5 := match c4 with
        | '|' :: t => t
        | _ => c4
      c5.all pyIsSpace

/-! ## `difflib.SequenceMatcher` (CPython), with `isjunk=None`, `autojunk=False`

The matcher is used by `diff.py` on line sequences, by `inline.py` on token
sequences, and by `_should_inline` on character sequences; it is modelled
generically.  With `isjunk=None` and `autojunk=False` the junk sets `bjunk`
and `bpopular` are empty, so `b2j` maps every element of `b` to the
ascending list of all of its positions.  The `j2len` dictionary (whose
absent keys read as 0, and whose keys are never negative, so the
`j2len.get(j-1, 0)` lookup at `j = 0` reads 0) is modelled as a total
function `Nat → Nat` defaulting to 0. -/

section SequenceMatcher

variable {α : Type} [DecidableEq α]

/-- `b2j[x]`: ascending positions of `x` in `b` (`[]` when absent). -/
def b2j (b : List α) (x : α) : List Nat :=
  (List.range b.length).filter (fun j => decide (b.get? j = some x))

/-- The empty junk set (`isjunk=None`, `autojunk=False`). -/
def bjunkContains (_b : List α) (_j : Nat) : Bool := false

structure FlmBest where
  besti : Nat
  bestj : Nat
  bestsize : Nat
deriving DecidableEq, Repr

/-- Inner loop of `find_longest_match` over `b2j[a[i]]`: `continue` below
`blo`, `break` at `bhi`, otherwise extend `newj2len` and update the best. -/
def flm_inner (blo bhi i : Nat) (j2len : Nat → Nat) :
    List Nat → FlmBest → (Nat → Nat) → FlmBest × (Nat → Nat)
  | [], best, newj2len => (best, newj2len)
  | j :: js, best, newj2len =>
    if j < blo then flm_inner blo bhi i j2len js best newj2len
    else if bhi ≤ j then (best, newj2len)
    else
      let k := (if j = 0 then 0 else j2len (j - 1)) + 1
      let newj2len1 := fun m => if m = j then k else newj2len m
      let best1 :=
        if best.bestsize < k then FlmBest.mk (i + 1 - k) (j + 1 - k) k else best
      flm_inner blo bhi i j2len js best1 newj2len1

/-- Main loop of `find_longest_match` over `i ∈ range(alo, ahi)`.  The
fuel argument is `ahi - i` at every call, so its exhaustion coincides
exactly with the loop exit. -/
def flm_main (a b : List α) (blo bhi : Nat) : Nat → Nat → Nat → (Nat → Nat) → FlmBest → FlmBest
  | 0, _, _, _, best => best
  | cnt + 1, i, ahi, j2len, best =>
    if i < ahi then
      let js := match a.get? i with
        | some x => b2j b x
        | none => []
      let r := flm_inner blo bhi i j2len js best (fun _ => 0)
      flm_main a b blo bhi cnt (i + 1) ahi r.2 r.1
    else best

/-- First (non-junk) extension loop: grow the match leftwards.  Called
with fuel `best.besti - alo`: each step moves `besti` one position down
while it stays above `alo`, so at fuel 0 the guard is false as well and
the fuel never changes the result. -/
def flm_ext_left (a b : List α) (alo blo : Nat) : Nat → FlmBest → FlmBest
  | 0, best => best
  | fuel + 1, best =>
    if alo < best.besti && blo < best.bestj &&
        !bjunkContains b (best.bestj - 1) &&
        (a.get? (best.besti - 1)).isSome &&
        decide (a.get? (best.besti - 1) = b.get? (best.bestj - 1)) then
      flm_ext_left a b alo blo fuel
        (FlmBest.mk (best.besti - 1) (best.bestj - 1) (best.bestsize + 1))
    else best

/-- Second (non-junk) extension loop: grow the match rightwards.  Called
with fuel `ahi - (besti + bestsize)`, which bounds the extension exactly. -/
def flm_ext_right (a b : List α) (ahi bhi : Nat) : Nat → FlmBest → FlmBest
  | 0, best => best
  | fuel + 1, best =>
    if best.besti + best.bestsize < ahi && best.bestj + best.bestsize < bhi &&
        !bjunkContains b (best.bestj + best.bestsize) &&
        (a.get? (best.besti + best.bestsize)).isSome &&
        decide (a.get? (best.besti + best.bestsize) = b.get? (best.bestj + best.bestsize)) then
      flm_ext_right a b ahi bhi fuel (FlmBest.mk best.besti best.bestj (best.bestsize + 1))
    else best

/-- Third extension loop (junk): never runs since `bjunkContains` is `false`. -/
def flm_ext_left_junk (a b : List α) (alo blo : Nat) : Nat → FlmBest → FlmBest
  | 0, best => best
  | fuel + 1, best =>
    if alo < best.besti && blo < best.bestj &&
        bjunkContains b (best.bestj - 1) &&
        (a.get? (best.besti - 1)).isSome &&
        decide (a.get? (best.besti - 1) = b.get? (best.bestj - 1)) then
      flm_ext_left_junk a b alo blo fuel
        (FlmBest.mk (best.besti - 1) (best.bestj - 1) (best.bestsize + 1))
    else best

/-- Fourth extension loop (junk): never runs since `bjunkContains` is `false`. -/
def flm_ext_right_junk (a b : List α) (ahi bhi : Nat) : Nat → FlmBest → FlmBest
  | 0, best => best
  | fuel + 1, best =>
    if best.besti + best.bestsize < ahi && best.bestj + best.bestsize < bhi &&
        bjunkContains b (best.bestj + best.bestsize) &&
        (a.get? (best.besti + best.bestsize)).isSome &&
        decide (a.get? (best.besti + best.bestsize) = b.get? (best.bestj + best.bestsize)) then
      flm_ext_right_junk a b ahi bhi fuel (FlmBest.mk best.besti best.bestj (best.bestsize + 1))
    else best

/-- `SequenceMatcher.find_longest_match(alo, ahi, blo, bhi)`. -/
def find_longest_match (a b : List α) (alo ahi blo bhi : Nat) : FlmBest :=
  let best0 := FlmBest.mk alo blo 0
  let best1 := flm_main a b blo bhi (ahi - alo) alo ahi (fun _ => 0) best0
  let best2 := flm_ext_left a b alo blo (best1.besti - alo) best1
  let best3 := flm_ext_right a b ahi bhi (ahi - (best2.besti + best2.bestsize)) best2
  let best4 := flm_ext_left_junk a b alo blo (best3.besti - alo) best3
  flm_ext_right_junk a b ahi bhi (ahi - (best4.besti + best4.bestsize)) best4

structure MBlock where
  i : Nat
  j : Nat
  size : Nat
deriving DecidableEq, Repr

/-- Measure of the pending-range queue, for termination. -/
def queueMeasure : List (Nat × Nat × Nat × Nat) → Nat
  | [] => 0
  | (alo, ahi, blo, bhi) :: rest => (ahi - alo) + (bhi - blo) + 1 + queueMeasure rest

/-- The two conditional pushes of the `get_matching_blocks` loop (Python
pushes the left sub-range and then the right one; popping from the end of
the queue therefore takes the right one first, so the right push sits at
the head here). -/
def gmbPushes (alo ahi blo bhi : Nat) (m : FlmBest) : List (Nat × Nat × Nat × Nat) :=
  (if m.besti + m.bestsize < ahi ∧ m.bestj + m.bestsize < bhi then
    [(m.besti + m.bestsize, ahi, m.bestj + m.bestsize, bhi)] else []) ++
  (if alo < m.besti ∧ blo < m.bestj then [(alo, m.besti, blo, m.bestj)] else [])

/-- The `get_matching_blocks` work-queue loop.  Python pops the most
recently pushed range first; the stack is modelled with its top at the head
(the traversal order only permutes the collected blocks, which are sorted
afterwards).  Every iteration strictly decreases the total queue measure
(a popped range of measure `m` contributes sub-ranges of total measure at
most `m - 1`, since the found match consumes at least one element of each
side), so the initial `queueMeasure` supplied by `gmb_queue` is never
exhausted. -/
def gmbGo (a b : List α) : Nat → List (Nat × Nat × Nat × Nat) → List MBlock
  | 0, _ => []
  | _ + 1, [] => []
  | fuel + 1, (alo, ahi, blo, bhi) :: rest =>
    let m := find_longest_match a b alo ahi blo bhi
    if 0 < m.bestsize then
      MBlock.mk m.besti m.bestj m.bestsize ::
        gmbGo a b fuel (gmbPushes alo ahi blo bhi m ++ rest)
    else gmbGo a b fuel rest

def gmb_queue (a b : List α) (queue : List (Nat × Nat × Nat × Nat)) : List MBlock :=
  gmbGo a b (queueMeasure queue) queue

/-- Lexicographic order on `(i, j, size)`, as Python tuple comparison. -/
def mblockLe (x y : MBlock) : Bool :=
  x.i < y.i || (x.i = y.i && (x.j < y.j || (x.j = y.j && x.size ≤ y.size)))

def insertMBlock (x : MBlock) : List MBlock → List MBlock
  | [] => [x]
  | y :: rest => if mblockLe x y then x :: y :: rest else y :: insertMBlock x rest

/-- `matching_blocks.sort()` (insertion sort; total lexicographic order). -/
def sortMBlocks : List MBlock → List MBlock
  | [] => []
  | x :: rest => insertMBlock x (sortMBlocks rest)

/-- The adjacent-block collapsing pass of `get_matching_blocks`. -/
def collapseAdj : Nat → Nat → Nat → List MBlock → List MBlock
  | i1, j1, k1, [] => if k1 ≠ 0 then [MBlock.mk i1 j1 k1] else []
  | i1, j1, k1, blk :: rest =>
    if i1 + k1 = blk.i ∧ j1 + k1 = blk.j then collapseAdj i1 j1 (k1 + blk.size) rest
    else
      (if k1 ≠ 0 then [MBlock.mk i1 j1 k1] else []) ++ collapseAdj blk.i blk.j blk.size rest

/-- `SequenceMatcher.get_matching_blocks()`, including the trailing
`(len(a), len(b), 0)` sentinel. -/
def get_matching_blocks (a b : List α) : List MBlock :=
  collapseAdj 0 0 0 (sortMBlocks (gmb_queue a b [(0, a.length, 0, b.length)])) ++
    [MBlock.mk a.length b.length 0]

inductive OpTag where
  | equal
  | delete
  | insert
  | replace
deriving DecidableEq, Repr

structure Opcode where
  tag : OpTag
  i1 : Nat
  i2 : Nat
  j1 : Nat
  j2 : Nat
deriving DecidableEq, Repr

def opcodesGo : Nat → Nat → List MBlock → List Opcode
  | _, _, [] => []
  | i, j, blk :: rest =>
    (if i < blk.i ∧ j < blk.j then [Opcode.mk OpTag.replace i blk.i j blk.j]
     else if i < blk.i then [Opcode.mk OpTag.delete i blk.i j blk.j]
     else if j < blk.j then [Opcode.mk OpTag.insert i blk.i j blk.j]
     else []) ++
    (if 0 < blk.size then
      [Opcode.mk OpTag.equal blk.i (blk.i + blk.size) blk.j (blk.j + blk.size)]
     else []) ++
    opcodesGo (blk.i + blk.size) (blk.j + blk.size) rest

/-- `SequenceMatcher.get_opcodes()`. -/
def get_opcodes (a b : List α) : List Opcode :=
  opcodesGo 0 0 (get_matching_blocks a b)

/-- Non-negative exact fraction, modelling the `float` ratios of `difflib`
without rounding (kept unreduced; comparisons cross-multiply). -/
structure RatFrac where
  num : Nat
  den : Nat
deriving DecidableEq, Repr

def fracLt (a b : RatFrac) : Bool := a.num * b.den < b.num * a.den

def fracLe (a b : RatFrac) : Bool := a.num * b.den ≤ b.num * a.den

/-- `difflib._calculate_ratio`: `2.0 * matches / length` (1.0 when
`length` is zero). -/
def calculateRatioF (ms length : Nat) : RatFrac :=
  if length ≠ 0 then RatFrac.mk (2 * ms) length else RatFrac.mk 1 1

/-- `SequenceMatcher.ratio()`: total matched size over total length. -/
def ratioF (a b : List α) : RatFrac :=
  calculateRatioF ((get_matching_blocks a b).foldr (fun blk acc => blk.size + acc) 0)
    (a.length + b.length)

def quickRatioGo (fullb : α → Nat) : (α → Option Int) → Nat → List α → Nat
  | _, ms, [] => ms
  | avail, ms, x :: rest =>
    let numb : Int := match avail x with
      | some v => v
      | none => fullb x
    quickRatioGo fullb (fun y => if y = x then some (numb - 1) else avail y)
      (if 0 < numb then ms + 1 else ms) rest

/-- `SequenceMatcher.quick_ratio()`: `fullbcount` is the element-count map
of `b` (built once by the first call), `avail` the remaining budget map. -/
def quickRatioF (a b : List α) : RatFrac :=
  calculateRatioF (quickRatioGo (fun x => b.count x) (fun _ => none) 0 a)
    (a.length + b.length)

/-- `SequenceMatcher.real_quick_ratio()`. -/
def realQuickRatioF (a b : List α) : RatFrac :=
  calculateRatioF (min a.length b.length) (a.length + b.length)

end SequenceMatcher

/-! ## `models.py` -/

inductive ChangeType where
  | unchanged
  | inserted
  | deleted
  | edited
  | skipped
deriving DecidableEq, Repr

structure NormalizationMetadata where
  original_length : Nat
  normalized_length : Nat
  transformations : String → Nat

structure NormalizedDocument where
  source_id : String
  lines : List String
  metadata : NormalizationMetadata
  digest : String

/-- `NormalizedDocument.text`: `"".join(self.lines)`. -/
def NormalizedDocument.text (d : NormalizedDocument) : String := joinList d.lines

structure InlineDiffSegment where
  kind : ChangeType
  left_text : String
  right_text : String
deriving DecidableEq, Repr

/-- `InlineDiffSegment.text`. -/
def InlineDiffSegment.text (s : InlineDiffSegment) : String :=
  if s.kind = ChangeType.inserted then s.right_text
  else if s.kind = ChangeType.deleted then s.left_text
  else if s.kind = ChangeType.edited then s.left_text
  else s.left_text

structure DiffLine where
  kind : ChangeType
  left_lineno : Option Nat
  right_lineno : Option Nat
  left_text : Option String
  right_text : Option String
  segments : List InlineDiffSegment
deriving DecidableEq, Repr

/-- `DiffLine.is_edited`. -/
def DiffLine.is_edited (l : DiffLine) : Bool := l.kind = ChangeType.edited

structure DiffResult where
  left : NormalizedDocument
  right : NormalizedDocument
  lines : List DiffLine
  context : Option Int

/-- `DiffResult.has_changes`. -/
def DiffResult.has_changes (r : DiffResult) : Bool :=
  r.lines.any (fun l => l.kind ≠ ChangeType.unchanged)

/-- `InlineDiffConfig` (thresholds as exact fractions; defaults
0.2 / 0.3 / 0.35). -/
structure InlineDiffConfig where
  min_real_quick_ratioF : RatFrac
  min_quick_ratioF : RatFrac
  min_ratioF : RatFrac
deriving DecidableEq, Repr

def defaultInlineDiffConfig : InlineDiffConfig :=
  InlineDiffConfig.mk (RatFrac.mk 1 5) (RatFrac.mk 3 10) (RatFrac.mk 7 20)

/-! ## `inline.py` -/

/-- `_TOKEN_RE = \s+|[A-Za-z0-9_]+|[^\w\s]` applied with `findall`: runs of
whitespace, runs of ASCII word characters, or single other characters.
(A character that matches no alternative — a non-ASCII word character —
is skipped by the scan, as in Python.) -/
def tokenizeGo : Nat → List Char → List (List Char)
  | 0, _ => []
  | _ + 1, [] => []
  | fuel + 1, c :: rest =>
    if pyIsSpace c then
      (c :: rest.takeWhile pyIsSpace) :: tokenizeGo fuel (rest.dropWhile pyIsSpace)
    else if c.isAlpha || c.isDigit || c = '_' then
      (c :: rest.takeWhile (fun x => x.isAlpha || x.isDigit || x = '_')) ::
        tokenizeGo fuel (rest.dropWhile (fun x => x.isAlpha || x.isDigit || x = '_'))
    else if ¬ pyIsWord c then
      [c] :: tokenizeGo fuel rest
    else tokenizeGo fuel rest

/-- `inline._tokenize` (the fuel, one per consumed character, is never
exhausted). -/
def _tokenize (text : String) : List String :=
  if text = "" then [] else (tokenizeGo text.data.length text.data).map (fun l => ⟨l⟩)

/-- `inline._strip_trailing_newline`. -/
def _strip_trailing_newline (value : String) : String × Bool :=
  if sEndsWith value "\n" then (sDropRight value 1, true) else (value, false)

/-- `inline._segment`. -/
def _segment (kind : ChangeType) (left right : String) : InlineDiffSegment :=
  InlineDiffSegment.mk kind left right

/-- `"".join(tokens[i1:i2])`. -/
def joinSlice (tokens : List String) (i1 i2 : Nat) : String :=
  joinList ((tokens.drop i1).take (i2 - i1))

/-- The opcode-materialisation loop of `diff_inline`. -/
def inlineSegmentsOfOpcodes (left_tokens right_tokens : List String) :
    List Opcode → List InlineDiffSegment
  | [] => []
  | op :: rest =>
    let left_text := joinSlice left_tokens op.i1 op.i2
    let right_text := joinSlice right_tokens op.j1 op.j2
    (match op.tag with
     | OpTag.equal =>
       if left_text ≠ "" then [_segment ChangeType.unchanged left_text right_text] else []
     | OpTag.delete =>
       if left_text ≠ "" then [_segment ChangeType.deleted left_text ""] else []
     | OpTag.insert =>
       if right_text ≠ "" then [_segment ChangeType.inserted "" right_text] else []
     | OpTag.replace =>
       if left_text ≠ "" ∨ right_text ≠ "" then
         [_segment ChangeType.edited left_text right_text] else []) ++
    inlineSegmentsOfOpcodes left_tokens right_tokens rest

/-- `inline._coalesce_segments`. -/
def _coalesce_segments (segments : List InlineDiffSegment) : List InlineDiffSegment :=
  match segments with
  | [] => []
  | s0 :: rest => coalesceGo s0 rest
where
  coalesceGo (prev : InlineDiffSegment) : List InlineDiffSegment → List InlineDiffSegment
  | [] => [prev]
  | s :: rest =>
    if s.kind = prev.kind then
      coalesceGo (_segment s.kind (prev.left_text ++ s.left_text)
        (prev.right_text ++ s.right_text)) rest
    else prev :: coalesceGo s rest

/-- `inline._is_mergeable_whitespace`. -/
def _is_mergeable_whitespace (segment : InlineDiffSegment) : Bool :=
  let text := if segment.left_text ≠ "" then segment.left_text else segment.right_text
  if text = "" then false
  else if sContains text '\n' then false
  else pyStrip text = ""

/-- `inline._is_change_segment`. -/
def _is_change_segment (segment : InlineDiffSegment) : Bool :=
  segment.kind = ChangeType.edited || segment.kind = ChangeType.inserted ||
    segment.kind = ChangeType.deleted

/-- `inline._combine_segments`. -/
def _combine_segments (left_segment whitespace right_segment : InlineDiffSegment) :
    InlineDiffSegment :=
  let left_text := left_segment.left_text ++ whitespace.left_text ++ right_segment.left_text
  let right_text :=
    left_segment.right_text ++ whitespace.right_text ++ right_segment.right_text
  let kind :=
    if left_text ≠ "" ∧ right_text ≠ "" then ChangeType.edited
    else if left_text ≠ "" then ChangeType.deleted
    else ChangeType.inserted
  InlineDiffSegment.mk kind left_text right_text

/-- The index-driven loop of `_merge_whitespace_bridges`; `resultRev` holds
the emitted segments in reverse (its head is Python's `result[-1]`). -/
def mergeBridgesGo (total : Nat) :
    List InlineDiffSegment → Nat → List InlineDiffSegment → List InlineDiffSegment
  | [], _, resultRev => resultRev.reverse
  | seg :: next :: rest2, i, prev :: resTail =>
    if 0 < i ∧ i < total - 1 ∧ seg.kind = ChangeType.unchanged ∧
        _is_mergeable_whitespace seg ∧ _is_change_segment prev ∧
        _is_change_segment next then
      mergeBridgesGo total rest2 (i + 2) (_combine_segments prev seg next :: resTail)
    else mergeBridgesGo total (next :: rest2) (i + 1) (seg :: prev :: resTail)
  | seg :: rest, i, resultRev => mergeBridgesGo total rest (i + 1) (seg :: resultRev)

/-- `inline._merge_whitespace_bridges`. -/
def _merge_whitespace_bridges (segments : List InlineDiffSegment) :
    List InlineDiffSegment :=
  if segments.length < 3 then segments
  else mergeBridgesGo segments.length segments 0 []

/-- `inline.diff_inline`. -/
def diff_inline (left right : String) : List InlineDiffSegment :=
  let lp := _strip_trailing_newline left
  let rp := _strip_trailing_newline right
  let left_tokens := _tokenize lp.1
  let right_tokens := _tokenize rp.1
  let segments0 := inlineSegmentsOfOpcodes left_tokens right_tokens
    (get_opcodes left_tokens right_tokens)
  let segments1 :=
    if lp.2 || rp.2 then
      segments0 ++
        [_segment
          (if lp.2 ∧ rp.2 then ChangeType.unchanged
           else if lp.2 then ChangeType.deleted else ChangeType.inserted)
          (if lp.2 then "\n" else "") (if rp.2 then "\n" else "")]
    else segments0
  _merge_whitespace_bridges (_coalesce_segments segments1)

/-! ## `normalize.py`: inline markup

`INLINE_CODE_RE`, `STRONG_UNDERSCORE_RE` and `EMPHASIS_UNDERSCORE_RE` are
translated as explicit scanners over the character list.  `re.finditer`
semantics: matches are leftmost and non-overlapping, the scan resuming at
each match's end; `.+?` takes the shortest content that lets the rest of
the pattern match and cannot cross a newline. -/

theorem head?_dropWhile_not (p : Char → Bool) (l : List Char) :
    ∀ x, (l.dropWhile p).head? = some x → p x = false := by
  induction l with
  | nil => intro x h; simp at h
  | cons c t ih =>
    intro x h
    rw [List.dropWhile_cons] at h
    split at h
    · exact ih x h
    · simp only [List.head?_cons, Option.some.injEq] at h
      subst h
      simp_all

theorem length_dropWhile_lt_of_head (p : Char → Bool) (l : List Char)
    (hl : l ≠ []) (hp : ∀ x, l.head? = some x → p x = true) :
    (l.dropWhile p).length < l.length := by
  match l with
  | [] => exact absurd rfl hl
  | c :: t =>
    rw [List.dropWhile_cons]
    have := hp c rfl
    simp only [this, if_true]
    exact Nat.lt_succ_of_le (length_dropWhile_le' p t)

/-- `INLINE_CODE_RE = `+[^`]+?`+` applied as `INLINE_CODE_RE.sub(_stash_code, text)`:
each code span is replaced by an `@@CODEn@@` token and recorded, in match
order, in the placeholder association list. -/
def stashCode : Nat → List Char → Nat → List Char × List (String × String)
  | 0, _, _ => ([], [])
  | _ + 1, [], _ => ([], [])
  | fuel + 1, c :: rest, n =>
    if c = '`' then
      let ticks1 := c :: rest.takeWhile (· = '`')
      let after1 := rest.dropWhile (· = '`')
      let content := after1.takeWhile (fun x => x ≠ '`')
      let after2 := after1.dropWhile (fun x => x ≠ '`')
      if content.isEmpty || after2.isEmpty then
        -- no full match starting on this backtick: the scan moves one char
        let r := stashCode fuel rest n
        (c :: r.1, r.2)
      else
        let ticks2 := after2.takeWhile (· = '`')
        let after3 := after2.dropWhile (· = '`')
        let token := "@@CODE" ++ toString n ++ "@@"
        let r := stashCode fuel after3 (n + 1)
        (token.data ++ r.1, (token, ⟨ticks1 ++ content ++ ticks2⟩) :: r.2)
    else
      let r := stashCode fuel rest n
      (c :: r.1, r.2)

/-- Opening condition of the `_`-emphasis patterns at position `p`:
`mlen` underscores (2 for strong, 1 for emphasis), preceded by a non-word
boundary (`(?<!\w)`), followed by a non-space character (`(?=\S)`). -/
def emphOpenOk (mlen : Nat) (cs : List Char) (p : Nat) : Bool :=
  ((List.range mlen).all fun i => cs.get? (p + i) = some '_') &&
  (p = 0 || (match cs.get? (p - 1) with
    | some c => ¬ pyIsWord c
    | none => true)) &&
  (match cs.get? (p + mlen) with
    | some c => ¬ pyIsSpace c
    | none => false)

/-- Closing condition at position `q`: `mlen` underscores, preceded by a
non-space character (`(?<=\S)`), followed by a non-word boundary (`(?!\w)`). -/
def emphCloseOk (mlen : Nat) (cs : List Char) (q : Nat) : Bool :=
  ((List.range mlen).all fun i => cs.get? (q + i) = some '_') &&
  (match cs.get? (q - 1) with
    | some c => ¬ pyIsSpace c
    | none => false) &&
  (match cs.get? (q + mlen) with
    | some c => ¬ pyIsWord c
    | none => true)

/-- Search for the shortest closing position at or after `q`; the content
(`.+?`) cannot contain a newline, so the search aborts at one. -/
def emphFindClose (mlen : Nat) (cs : List Char) : Nat → Nat → Option Nat
  | 0, _ => none
  | fuel + 1, q =>
    if q < cs.length then
      if emphCloseOk mlen cs q then some q
      else if cs.get? q = some '\n' then none
      else emphFindClose mlen cs fuel (q + 1)
    else none

/-- Leftmost match search from position `p`; returns the span `[s, e)`. -/
def emphFindMatch (mlen : Nat) (cs : List Char) : Nat → Nat → Option (Nat × Nat)
  | 0, _ => none
  | fuel + 1, p =>
    if p < cs.length then
      if emphOpenOk mlen cs p then
        match emphFindClose mlen cs (cs.length - (p + mlen + 1)) (p + mlen + 1) with
        | some q => some (p, q + mlen)
        | none => emphFindMatch mlen cs fuel (p + 1)
      else emphFindMatch mlen cs fuel (p + 1)
    else none

/-- `_apply_with_escape_guard(pattern, repl)`: walk the matches from
position `p`, copying unmatched text; a match whose start is preceded by a
backslash is left as it stood, otherwise it is rewritten to
`wrap ++ content ++ wrap` (`strong_repl`/`emphasis_repl`; their defensive
leading-backslash branch is unreachable, the match always starts with `_`). -/
def applyEmphGuard (mlen : Nat) (wrap : String) (cs : List Char) :
    Nat → Nat → List Char
  | 0, p => cs.drop p
  | fuel + 1, p =>
    match emphFindMatch mlen cs (cs.length - p) p with
    | none => cs.drop p
    | some (s, e) =>
      let copied := (cs.drop p).take (s - p)
      let matched := (cs.drop s).take (e - s)
      let content := (cs.drop (s + mlen)).take (e - mlen - (s + mlen))
      if 0 < s ∧ cs.get? (s - 1) = some '\\' then
        copied ++ matched ++ applyEmphGuard mlen wrap cs fuel e
      else
        copied ++ wrap.data ++ content ++ wrap.data ++ applyEmphGuard mlen wrap cs fuel e

/-- `normalize._normalize_inline_markup`. -/
def _normalize_inline_markup (text : String) : String :=
  if text = "" || ¬ sContains text '_' then text
  else
    let stash := stashCode text.data.length text.data 0
    let temp1 := applyEmphGuard 2 "**" stash.1 (stash.1.length + 1) 0
    let temp2 := applyEmphGuard 1 "*" temp1 (temp1.length + 1) 0
    let temp3 := replaceL "\\\\*\\_".data "\\\\_\\_".data temp2
    let temp4 := replaceL "\\\\_\\*".data "\\\\_\\_".data temp3
    let temp5 := replaceL "\\\\*\\*".data "\\\\_\\_".data temp4
    ⟨stash.2.foldl (fun acc tok => replaceL tok.1.data tok.2.data acc) temp5⟩

/-! ## UTF-8 and SHA-256 (runtime primitives used by `normalize.py`)

Bytes are modelled as `Nat` values below 256.  `utf8Encode` is Python
`str.encode("utf-8")`; `utf8Decode` is strict `bytes.decode("utf-8")`
(rejecting overlong forms, surrogates and values above U+10FFFF), returning
`none` where Python raises `UnicodeDecodeError`. -/

def utf8EncodeChar (c : Char) : List Nat :=
  let n := c.toNat
  if n < 0x80 then [n]
  else if n < 0x800 then [0xc0 + n / 64, 0x80 + n % 64]
  else if n < 0x10000 then [0xe0 + n / 4096, 0x80 + n / 64 % 64, 0x80 + n % 64]
  else [0xf0 + n / 262144, 0x80 + n / 4096 % 64, 0x80 + n / 64 % 64, 0x80 + n % 64]

def utf8Encode (s : String) : List Nat := (s.data.map utf8EncodeChar).join

/-- Test for a UTF-8 continuation byte, returning its payload. -/
def utf8Cont (b : Nat) : Option Nat :=
  if 0x80 ≤ b ∧ b < 0xc0 then some (b - 0x80) else none

def utf8DecodeGo : List Nat → Option (List Char)
  | [] => some []
  | b :: rest =>
    if b < 0x80 then
      (utf8DecodeGo rest).map (fun cs => Char.ofNat b :: cs)
    else if b < 0xc2 then none
    else if b < 0xe0 then
      match rest with
      | b1 :: rest1 =>
        match utf8Cont b1 with
        | some p1 => (utf8DecodeGo rest1).map (fun cs => Char.ofNat ((b - 0xc0) * 64 + p1) :: cs)
        | none => none
      | [] => none
    else if b < 0xf0 then
      match rest with
      | b1 :: b2 :: rest2 =>
        match utf8Cont b1, utf8Cont b2 with
        | some p1, some p2 =>
          let n := (b - 0xe0) * 4096 + p1 * 64 + p2
          if n < 0x800 ∨ (0xd800 ≤ n ∧ n < 0xe000) then none
          else (utf8DecodeGo rest2).map (fun cs => Char.ofNat n :: cs)
        | _, _ => none
      | _ => none
    else if b < 0xf5 then
      match rest with
      | b1 :: b2 :: b3 :: rest3 =>
        match utf8Cont b1, utf8Cont b2, utf8Cont b3 with
        | some p1, some p2, some p3 =>
          let n := (b - 0xf0) * 262144 + p1 * 4096 + p2 * 64 + p3
          if n < 0x10000 ∨ 0x110000 ≤ n then none
          else (utf8DecodeGo rest3).map (fun cs => Char.ofNat n :: cs)
        | _, _, _ => none
      | _ => none
    else none

def utf8Decode (bs : List Nat) : Option String :=
  (utf8DecodeGo bs).map (fun cs => ⟨cs⟩)

/-- 32-bit word arithmetic for SHA-256, over `Nat` modulo `2 ^ 32`. -/
def w32 (n : Nat) : Nat := n % 4294967296

def rotr32 (x n : Nat) : Nat := w32 (x / 2 ^ n + x % 2 ^ n * 2 ^ (32 - n))

def shr32 (x n : Nat) : Nat := x / 2 ^ n

/-- Bitwise operations; `Nat.land`/`lor`/`xor` act bitwise on `Nat`. -/
def and32 (a b : Nat) : Nat := Nat.land a b

def xor32 (a b : Nat) : Nat := Nat.xor a b

def not32 (a : Nat) : Nat := 4294967295 - a

def sha256K : List Nat :=
  [1116352408, 1899447441, 3049323471, 3921009573, 961987163,
   1508970993, 2453635748, 2870763221, 3624381080, 310598401,
   607225278, 1426881987, 1925078388, 2162078206, 2614888103,
   3248222580, 3835390401, 4022224774, 264347078, 604807628,
   770255983, 1249150122, 1555081692, 1996064986, 2554220882,
   2821834349, 2952996808, 3210313671, 3336571891, 3584528711,
   113926993, 338241895, 666307205, 773529912, 1294757372,
   1396182291, 1695183700, 1986661051, 2177026350, 2456956037,
   2730485921, 2820302411, 3259730800, 3345764771, 3516065817,
   3600352804, 4094571909, 275423344, 430227734, 506948616,
   659060556, 883997877, 958139571, 1322822218, 1537002063,
   1747873779, 1955562222, 2024104815, 2227730452, 2361852424,
   2428436474, 2756734187, 3204031479, 3329325298]

/-- SHA-256 message padding over a byte list. -/
def sha256Pad (msg : List Nat) : List Nat :=
  let bitLen := msg.length * 8
  let zeros := (64 - (msg.length + 9) % 64) % 64
  msg ++ [0x80] ++ List.replicate zeros 0 ++
    [bitLen / 2 ^ 56 % 256, bitLen / 2 ^ 48 % 256, bitLen / 2 ^ 40 % 256,
     bitLen / 2 ^ 32 % 256, bitLen / 2 ^ 24 % 256, bitLen / 2 ^ 16 % 256,
     bitLen / 2 ^ 8 % 256, bitLen % 256]

/-- Split the padded message into 64-byte chunks. -/
def sha256Chunks : Nat → List Nat → List (List Nat)
  | 0, _ => []
  | _ + 1, [] => []
  | fuel + 1, b :: bs => ((b :: bs).take 64) :: sha256Chunks fuel ((b :: bs).drop 64)

/-- Four big-endian bytes to one 32-bit word. -/
def word32Of (bs : List Nat) (i : Nat) : Nat :=
  bs.getD (4 * i) 0 * 2 ^ 24 + bs.getD (4 * i + 1) 0 * 2 ^ 16 +
    bs.getD (4 * i + 2) 0 * 2 ^ 8 + bs.getD (4 * i + 3) 0

/-- The 64-entry message schedule of one chunk. -/
def sha256Schedule (chunk : List Nat) : Nat → List Nat
  | 0 => []
  | t + 1 =>
    let prev := sha256Schedule chunk t
    if t < 16 then prev ++ [word32Of chunk t]
    else
      let w15 := prev.getD (t - 15) 0
      let w2 := prev.getD (t - 2) 0
      let s0 := xor32 (xor32 (rotr32 w15 7) (rotr32 w15 18)) (shr32 w15 3)
      let s1 := xor32 (xor32 (rotr32 w2 17) (rotr32 w2 19)) (shr32 w2 10)
      prev ++ [w32 (prev.getD (t - 16) 0 + s0 + prev.getD (t - 7) 0 + s1)]

/-- One round of the SHA-256 compression function. -/
def sha256Round (st : List Nat) (kt wt : Nat) : List Nat :=
  match st with
  | [a, b, c, d, e, f, g, h] =>
    let s1 := xor32 (xor32 (rotr32 e 6) (rotr32 e 11)) (rotr32 e 25)
    let ch := xor32 (and32 e f) (and32 (not32 e) g)
    let temp1 := w32 (h + s1 + ch + kt + wt)
    let s0 := xor32 (xor32 (rotr32 a 2) (rotr32 a 13)) (rotr32 a 22)
    let maj := xor32 (xor32 (and32 a b) (and32 a c)) (and32 b c)
    let temp2 := w32 (s0 + maj)
    [w32 (temp1 + temp2), a, b, c, w32 (d + temp1), e, f, g]
  | other => other

def sha256Compress (hv : List Nat) (chunk : List Nat) : List Nat :=
  let ws := sha256Schedule chunk 64
  let st := (List.range 64).foldl
    (fun st t => sha256Round st (sha256K.getD t 0) (ws.getD t 0)) hv
  (List.range 8).map (fun i => w32 (hv.getD i 0 + st.getD i 0))

def sha256Init : List Nat :=
  [1779033703, 3144134277, 1013904242, 2773480762, 1359893119,
   2600822924, 528734635, 1541459225]

def hexDigit (n : Nat) : Char :=
  if n < 10 then Char.ofNat (48 + n) else Char.ofNat (87 + n)

def hex8 (w : Nat) : List Char :=
  [hexDigit (w / 2 ^ 28 % 16), hexDigit (w / 2 ^ 24 % 16), hexDigit (w / 2 ^ 20 % 16),
   hexDigit (w / 2 ^ 16 % 16), hexDigit (w / 2 ^ 12 % 16), hexDigit (w / 2 ^ 8 % 16),
   hexDigit (w / 2 ^ 4 % 16), hexDigit (w % 16)]

/-- `hashlib.sha256(bytes).hexdigest()`. -/
def sha256Hex (msg : List Nat) : String :=
  let padded := sha256Pad msg
  let hv := (sha256Chunks padded.length padded).foldl sha256Compress sha256Init
  ⟨(hv.map hex8).join⟩

/-! ## `normalize.py`: block-level pipeline -/

/-- The spec's error taxonomy, naming the exceptions the code raises:
`DecodingError` is `UnicodeDecodeError` (bytes not valid UTF-8),
`UnsupportedInputKind` the `TypeError` of `_coerce_text`, and
`InvalidArgument` the `ValueError` of `_apply_context`.  Raising is
modelled with `Except`. -/
inductive MdError where
  | decodingError
  | unsupportedInputKind
  | invalidArgument
deriving DecidableEq, Repr

/-- `collections.Counter` over transformation names. -/
def Stats := String → Nat

def emptyStats : Stats := fun _ => 0

def statsAdd (s : Stats) (k : String) (n : Nat) : Stats :=
  fun x => if x = k then s x + n else s x

/-- `Counter.update(other)`: pointwise addition. -/
def statsMerge (s t : Stats) : Stats := fun x => s x + t x

/-- `normalize._normalize_line_endings`. -/
def _normalize_line_endings (text : String) : String :=
  pyReplace (pyReplace text "\r\n" "\n") "\r" "\n"

/-- `normalize._strip_bom`. -/
def _strip_bom (text : String) : String := pyLstripBom text

/-- `normalize._trim_blank_ends`. -/
def _trim_blank_ends (text : String) : String :=
  let lines := pySplitlines text
  let lines1 := lines.dropWhile (fun l => pyStrip l = "")
  let lines2 := (lines1.reverse.dropWhile (fun l => pyStrip l = "")).reverse
  if lines2.isEmpty then "" else intercalateS "\n" lines2

/-- `normalize._ensure_trailing_newline`. -/
def _ensure_trailing_newline (text : String) : String :=
  if sEndsWith text "\n" then text else text ++ "\n"

def collapseSpaceRuns : Nat → List Char → List Char
  | 0, l => l
  | _ + 1, [] => []
  | fuel + 1, c :: rest =>
    if isSpaceOrTab c then ' ' :: collapseSpaceRuns fuel (rest.dropWhile isSpaceOrTab)
    else c :: collapseSpaceRuns fuel rest

/-- `normalize._collapse_spaces`: `re.sub(r"[ \t]+", " ", text).strip()`. -/
def _collapse_spaces (text : String) : String :=
  pyStrip ⟨collapseSpaceRuns text.data.length text.data⟩

def squashFold (acc : List String) : List String → List String
  | [] => acc
  | line :: rest =>
    if line ≠ "" then squashFold (line :: acc) rest
    else
      match acc with
      | prev :: _ =>
        if prev = "" then squashFold acc rest else squashFold ("" :: acc) rest
      | [] => squashFold [""] rest

/-- `normalize._squash_blank_lines` (`acc` holds the output reversed; the
final loop popping trailing blanks is the `dropWhile` on the reverse). -/
def _squash_blank_lines (lines : List String) : List String :=
  ((squashFold [] lines).dropWhile (fun l => l = "")).reverse

/-- `normalize._looks_like_horizontal_rule`. -/
def _looks_like_horizontal_rule (stripped : String) : Bool :=
  let compact := pyReplace stripped " " ""
  compact ≠ "" && hrCompactFullmatch compact

/-- `normalize._is_blockquote_line` (after the `startswith(">")` test the
scan over `"> \t"` always counts at least the leading `>`). -/
def _is_blockquote_line (line : String) : Bool :=
  let stripped := pyLstrip line
  if ¬ sStartsWith stripped ">" then false
  else 0 < (stripped.data.takeWhile (fun c => c = '>' || c = ' ' || c = '\t')).length

/-- `normalize._match_fence_start`. -/
def _match_fence_start (line : String) : Option FenceMatch := fenceRe (pyLstrip line)

/-- The fence body scan of `_normalize_code_fence`: collect body lines
(right-stripped of newlines) until a homogeneous fence of the same marker
character; returns (body, final index, closing marker when found). -/
def fenceScanGo (lines : List String) (mc : Char) : Nat → Nat → List String × Nat × Option String
  | 0, i => ([], i, none)
  | fuel + 1, i =>
    if i < lines.length then
      let current := lines.getD i ""
      match _match_fence_start current with
      | some cm =>
        if cm.marker.data.headD ' ' = mc ∧ cm.marker.data.all (· = mc) then
          ([], i, some cm.marker)
        else
          let r := fenceScanGo lines mc fuel (i + 1)
          (pyRstripNewlines current :: r.1, r.2)
      | none =>
        let r := fenceScanGo lines mc fuel (i + 1)
        (pyRstripNewlines current :: r.1, r.2)
    else ([], i, none)

def fence_scan (lines : List String) (mc : Char) (i : Nat) :
    List String × Nat × Option String :=
  fenceScanGo lines mc (lines.length - i) i

/-- `normalize._normalize_code_fence`. -/
def _normalize_code_fence (lines : List String) (start : Nat) (m : FenceMatch) :
    List String × Nat × Nat :=
  let marker := m.marker
  let language := pyStrip m.rest
  let normalized_line := if language ≠ "" then "``` " ++ language else "```"
  let changed := if marker ≠ "```" then 1 else 0
  let marker_char := marker.data.headD ' '
  let r := fence_scan lines marker_char (start + 1)
  match r.2.2 with
  | some closer =>
    (normalized_line :: r.1 ++ ["```"], r.2.1 - start + 1,
      changed + if closer ≠ "```" then 1 else 0)
  | none =>
    -- unterminated fence: closed here, counted as a transformation
    (normalized_line :: r.1 ++ ["```"], r.2.1 - start + 1, changed + 1)

/-- `normalize._is_setext_heading`. -/
def _is_setext_heading (lines : List String) (index : Nat) : Bool :=
  if index + 1 < lines.length then
    pyStrip (lines.getD index "") ≠ "" && setextUnderlineMatch (lines.getD (index + 1) "")
  else false

/-- `normalize._normalize_setext_heading`. -/
def _normalize_setext_heading (title_line underline_line : String) : String :=
  let level := if sStartsWith (pyStrip underline_line) "=" then 1 else 2
  pyRstrip (⟨List.replicate level '#'⟩ ++ " " ++ _collapse_spaces (pyStrip title_line))

/-- `re.sub(r"\s*#+\s*$", "", body)` of `_normalize_atx_heading`. -/
def stripTrailingHashDecoration (body : List Char) : List Char :=
  let r1 := body.reverse.dropWhile pyIsSpace
  match r1 with
  | '#' :: _ => ((r1.dropWhile (· = '#')).dropWhile pyIsSpace).reverse
  | _ => body

/-- `normalize._normalize_atx_heading`. -/
def _normalize_atx_heading (line : String) : String :=
  let stripped := pyStrip line
  match atxHeadingMatch stripped with
  | none => stripped
  | some (marker, bodyOpt) =>
    let body1 := pyStrip (bodyOpt.getD "")
    let body2 : String := ⟨stripTrailingHashDecoration body1.data⟩
    let body3 := if body2 ≠ "" then _collapse_spaces body2 else body2
    pyRstrip (marker ++ " " ++ body3)

/-- `normalize._looks_like_table_row`. -/
def _looks_like_table_row (line : String) : Bool :=
  let stripped := pyStrip line
  if stripped = "" || sStartsWith stripped "`" then false
  else 1 ≤ stripped.data.count '|'

/-- `normalize._is_table_separator_line`. -/
def _is_table_separator_line (line : String) : Bool := tableSepMatch (pyStrip line)

/-- `normalize._is_table_block_start`. -/
def _is_table_block_start (lines : List String) (index : Nat) : Bool :=
  if index + 1 < lines.length then
    _looks_like_table_row (lines.getD index "") &&
      _is_table_separator_line (lines.getD (index + 1) "")
  else false

/-- `normalize._split_table_cells`. -/
def _split_table_cells (line : String) : List String :=
  let stripped := pyStrip line
  let s1 := if sStartsWith stripped "|" then sDrop stripped 1 else stripped
  let s2 := if sEndsWith s1 "|" then sDropRight s1 1 else s1
  let parts := splitOnS s2 "|"
  if parts.isEmpty then [""] else parts

/-- `normalize._normalize_table_separator_cell`. -/
def _normalize_table_separator_cell (cell : String) : String :=
  let stripped := pyStrip cell
  let align_left := sStartsWith stripped ":"
  let align_right := sEndsWith stripped ":" && 0 < stripped.length
  let dash_count0 := stripped.data.count '-'
  let dash_count := if dash_count0 < 3 then 3 else dash_count0
  let dashes : String := ⟨List.replicate dash_count '-'⟩
  if align_left && align_right then ":" ++ dashes ++ ":"
  else if align_left then ":" ++ dashes
  else if align_right then dashes ++ ":"
  else dashes

/-- `normalize._normalize_table_row_line`. -/
def _normalize_table_row_line (line : String) : String :=
  let cells := _split_table_cells line
  let normalized_cells := cells.map (fun cell => _normalize_inline_markup (pyStrip cell))
  "| " ++ intercalateS " | " normalized_cells ++ " |"

/-- `normalize._normalize_table_separator_line`. -/
def _normalize_table_separator_line (line : String) : String :=
  let cells := _split_table_cells line
  let normalized_cells := cells.map _normalize_table_separator_cell
  "| " ++ intercalateS " | " normalized_cells ++ " |"

/-- The collection loop of `_normalize_table_block` (stripped lines). -/
def tableCollectGo (lines : List String) : Nat → Nat → List String
  | 0, _ => []
  | fuel + 1, i =>
    if i < lines.length then
      let current := lines.getD i ""
      if pyStrip current = "" then []
      else
        let stripped := pyStrip current
        if _looks_like_table_row stripped || _is_table_separator_line stripped then
          stripped :: tableCollectGo lines fuel (i + 1)
        else []
    else []

def tableCollect (lines : List String) (i : Nat) : List String :=
  tableCollectGo lines (lines.length - i) i

def tableNormalizeAll : List String → List String × Stats
  | [] => ([], emptyStats)
  | line :: rest =>
    let r := tableNormalizeAll rest
    if _is_table_separator_line line then
      let new_line := _normalize_table_separator_line line
      (new_line :: r.1,
        if new_line ≠ line then statsAdd r.2 "table_separator" 1 else r.2)
    else
      let new_line := _normalize_table_row_line line
      (new_line :: r.1,
        if new_line ≠ line then statsAdd r.2 "table_cells" 1 else r.2)

/-- `normalize._normalize_table_block`. -/
def _normalize_table_block (lines : List String) (start : Nat) :
    List String × Nat × Stats :=
  let block_lines := tableCollect lines start
  let r := tableNormalizeAll block_lines
  (r.1, block_lines.length, r.2)

/-- `normalize._indent_depth`. -/
def _indent_depth (indent : String) : Nat :=
  let expanded := pyReplace indent "\t" "    "
  if expanded = "" then 0
  else if expanded.data.all (· = ' ') && expanded.length % 4 = 0 then
    expanded.length / 4
  else max 1 ((expanded.length + 1) / 2)

/-- `normalize._is_list_item_line`. -/
def _is_list_item_line (line : String) : Bool :=
  (matchUnorderedList line).isSome || (matchOrderedList line).isSome

/-- The collection-and-normalization loop of `_normalize_list_block`. -/
def listBlockGo (lines : List String) : Nat → Nat → List String × Nat × Stats
  | 0, _ => ([], 0, emptyStats)
  | fuel + 1, i =>
    if i < lines.length then
      let line := lines.getD i ""
      if pyStrip line = "" then ([], 0, emptyStats)
      else
        match matchUnorderedList line with
        | some u =>
          let normalized_indent : String :=
            ⟨List.replicate (_indent_depth u.1 * 4) ' '⟩
          let rest := _normalize_inline_markup (pyLstrip u.2.2)
          let normalized :=
            if rest ≠ "" then normalized_indent ++ "- " ++ rest
            else normalized_indent ++ "-"
          let r := listBlockGo lines fuel (i + 1)
          (normalized :: r.1, r.2.1 + 1,
            if normalized ≠ pyRstrip line then statsAdd r.2.2 "unordered_list_marker" 1
            else r.2.2)
        | none =>
          match matchOrderedList line with
          | some o =>
            let normalized_indent : String :=
              ⟨List.replicate (_indent_depth o.1 * 4) ' '⟩
            let rest := _normalize_inline_markup (pyLstrip o.2)
            let normalized :=
              if rest ≠ "" then normalized_indent ++ "1. " ++ rest
              else normalized_indent ++ "1."
            let r := listBlockGo lines fuel (i + 1)
            (normalized :: r.1, r.2.1 + 1,
              if normalized ≠ pyRstrip line then statsAdd r.2.2 "ordered_list_marker" 1
              else r.2.2)
          | none => ([], 0, emptyStats)
    else ([], 0, emptyStats)

/-- `normalize._normalize_list_block`. -/
def _normalize_list_block (lines : List String) (start : Nat) :
    List String × Nat × Stats :=
  listBlockGo lines (lines.length - start) start

/-- `normalize._strip_one_blockquote_marker`. -/
def _strip_one_blockquote_marker (line : String) : String :=
  let stripped := pyLstrip line
  if ¬ sStartsWith stripped ">" then stripped
  else pyLstrip (sDrop stripped 1)

/-- `normalize._count_line_differences`. -/
def _count_line_differences (original updated : List String) : Nat :=
  let max_len := max original.length updated.length
  ((List.range max_len).filter (fun idx =>
    pyStrip (original.getD idx "") ≠ pyStrip (updated.getD idx ""))).length

/-- `normalize._is_block_start`. -/
def _is_block_start (lines : List String) (index : Nat) : Bool :=
  let line := lines.getD index ""
  (_match_fence_start line).isSome ||
  _is_blockquote_line line ||
  _is_list_item_line line ||
  (atxHeadingMatch (pyStrip line)).isSome ||
  _looks_like_horizontal_rule (pyStrip line) ||
  _is_setext_heading lines index

/-- The paragraph collection loop of `_normalize_blocks` (lines rstripped,
count consumed). -/
def paragraphCollectGo (lines : List String) : Nat → Nat → List String × Nat
  | 0, _ => ([], 0)
  | fuel + 1, i =>
    if i < lines.length then
      let current := lines.getD i ""
      if pyStrip current = "" then ([], 0)
      else if _is_block_start lines i then ([], 0)
      else
        let r := paragraphCollectGo lines fuel (i + 1)
        (pyRstrip current :: r.1, r.2 + 1)
    else ([], 0)

def paragraphCollect (lines : List String) (i : Nat) : List String × Nat :=
  paragraphCollectGo lines (lines.length - i) i

/-- `normalize._normalize_blockquote_block`, with the recursive
re-normalization of the inner document passed in as `recBlocks`. -/
def _normalize_blockquote_block (recBlocks : String → String × Stats)
    (lines : List String) (start : Nat) : List String × Nat × Stats :=
  let raw_lines := (lines.drop start).takeWhile _is_blockquote_line
  let inner_lines := raw_lines.map _strip_one_blockquote_marker
  let inner :=
    if inner_lines ≠ [] then recBlocks (intercalateS "\n" inner_lines)
    else ("", emptyStats)
  let normalized_block :=
    if inner.1 ≠ "" then
      (splitOnS inner.1 "\n").map (fun l =>
        if sStartsWith l ">" then ">" ++ l
        else if l ≠ "" then "> " ++ l
        else ">")
    else [">"]
  let differences := _count_line_differences raw_lines normalized_block
  let stats :=
    if differences ≠ 0 then statsAdd inner.2 "blockquote_prefix" differences
    else inner.2
  (normalized_block, raw_lines.length, stats)

/-- The scanning loop of `_normalize_blocks`.  `outputRev` holds the output
reversed (its head is Python's `output[-1]`).  `loopFuel` bounds the number
of iterations; every iteration advances `i` by at least one line, so the
`lines.length + 1` supplied by `_normalize_blocks` is never exhausted. -/
def normLoop (recBlocks : String → String × Stats) (lines : List String) :
    Nat → Nat → List String → Stats → List String × Stats
  | 0, _, outputRev, stats => (outputRev.reverse, stats)
  | loopFuel + 1, i, outputRev, stats =>
    if i < lines.length then
      let line := lines.getD i ""
      if pyStrip line = "" then
        match outputRev with
        | prev :: _ =>
          if prev ≠ "" then normLoop recBlocks lines loopFuel (i + 1) ("" :: outputRev) stats
          else normLoop recBlocks lines loopFuel (i + 1) outputRev stats
        | [] => normLoop recBlocks lines loopFuel (i + 1) outputRev stats
      else
        match _match_fence_start line with
        | some fm =>
          let r := _normalize_code_fence lines i fm
          normLoop recBlocks lines loopFuel (i + r.2.1) (r.1.reverse ++ outputRev)
            (if r.2.2 ≠ 0 then statsAdd stats "code_fence_marker" r.2.2 else stats)
        | none =>
          if _is_setext_heading lines i then
            let heading := _normalize_setext_heading (lines.getD i "") (lines.getD (i + 1) "")
            normLoop recBlocks lines loopFuel (i + 2) (heading :: outputRev)
              (statsAdd stats "setext_to_atx" 1)
          else
            let stripped := pyStrip line
            if _looks_like_horizontal_rule stripped then
              normLoop recBlocks lines loopFuel (i + 1) ("---" :: outputRev)
                (if stripped ≠ "---" then statsAdd stats "horizontal_rule" 1 else stats)
            else if (atxHeadingMatch stripped).isSome then
              normLoop recBlocks lines loopFuel (i + 1)
                (_normalize_atx_heading line :: outputRev) stats
            else if _is_table_block_start lines i then
              let r := _normalize_table_block lines i
              normLoop recBlocks lines loopFuel (i + r.2.1) (r.1.reverse ++ outputRev)
                (statsMerge stats r.2.2)
            else if _is_blockquote_line line then
              let r := _normalize_blockquote_block recBlocks lines i
              normLoop recBlocks lines loopFuel (i + r.2.1) (r.1.reverse ++ outputRev)
                (statsMerge stats r.2.2)
            else if _is_list_item_line line then
              let r := _normalize_list_block lines i
              normLoop recBlocks lines loopFuel (i + r.2.1) (r.1.reverse ++ outputRev)
                (statsMerge stats r.2.2)
            else
              let pc := paragraphCollect lines i
              let para :=
                if pc.1 ≠ [] then
                  [_normalize_inline_markup (_collapse_spaces (intercalateS " " pc.1))]
                else []
              normLoop recBlocks lines loopFuel (i + pc.2) (para.reverse ++ outputRev) stats
    else (outputRev.reverse, stats)

/-- `normalize._normalize_blocks`.  The first fuel argument bounds the
blockquote recursion depth (each level strips one marker, so any depth
beyond the text length is unreachable); `normalize` supplies
`text.length + 1`. -/
def _normalize_blocks : Nat → String → String × Stats
  | 0, _ => ("", emptyStats)
  | fuel + 1, text =>
    let lines := pySplitlines text
    let r := normLoop (_normalize_blocks fuel) lines (lines.length + 1) 0 [] emptyStats
    (intercalateS "\n" (_squash_blank_lines r.1), r.2)

/-- `_coerce_text`'s input universe: the `isinstance`/duck-typing chain of
`normalize.py` distinguishes `str`, `bytes`, `io.TextIOBase` streams,
`io.BufferedIOBase` streams, other objects with a `read()` returning bytes
or text, and everything else (the `TypeError`, named `UnsupportedInputKind`
by the spec). -/
inductive InputValue where
  | str (s : String)
  | bytes (bs : List Nat)
  | textIOBase (s : String)
  | bufferedIOBase (bs : List Nat)
  | duckReadBytes (bs : List Nat)
  | duckReadStr (s : String)
  | unsupported

/-- `normalize._coerce_text`. -/
def _coerce_text : InputValue → Except MdError String
  | InputValue.str s => Except.ok s
  | InputValue.bytes bs =>
    match utf8Decode bs with
    | some s => Except.ok s
    | none => Except.error MdError.decodingError
  | InputValue.textIOBase s => Except.ok s
  | InputValue.bufferedIOBase bs =>
    match utf8Decode bs with
    | some s => Except.ok s
    | none => Except.error MdError.decodingError
  | InputValue.duckReadBytes bs =>
    match utf8Decode bs with
    | some s => Except.ok s
    | none => Except.error MdError.decodingError
  | InputValue.duckReadStr s => Except.ok s
  | InputValue.unsupported => Except.error MdError.unsupportedInputKind

/-- The body of `normalize.normalize` after input coercion. -/
def normalizeText (coerced : String) (source_id : String) : NormalizedDocument :=
  let original_text := _strip_bom (_normalize_line_endings coerced)
  let r := _normalize_blocks (original_text.length + 1) original_text
  let normalized_text := _ensure_trailing_newline (_trim_blank_ends r.1)
  let lines := pySplitlinesKeepends normalized_text
  let metadata := NormalizationMetadata.mk original_text.length normalized_text.length r.2
  let digest := sha256Hex (utf8Encode normalized_text)
  NormalizedDocument.mk source_id lines metadata digest

/-- `normalize.normalize`. -/
def normalize (value : InputValue) (source_id : String) :
    Except MdError NormalizedDocument := do
  let t ← _coerce_text value
  return normalizeText t source_id

/-! ## `diff.py`

The spec's error taxonomy names the exceptions raised by the code:
`DecodingError` is `UnicodeDecodeError` (bytes not valid UTF-8),
`UnsupportedInputKind` is the `TypeError` of `_coerce_text`, and
`InvalidArgument` is the `ValueError` of `_apply_context`.  Raising is
modelled with `Except`. -/

/-- `diff._should_inline`. -/
def _should_inline (left_line right_line : String)
    (inline_config : Option InlineDiffConfig) : Bool :=
  let left_body := pyRstripNewlines left_line
  let right_body := pyRstripNewlines right_line
  if left_body = "" ∧ right_body = "" then true
  else
    let a := left_body.data
    let b := right_body.data
    let config := inline_config.getD defaultInlineDiffConfig
    if fracLt (realQuickRatioF a b) config.min_real_quick_ratioF then false
    else if fracLt (quickRatioF a b) config.min_quick_ratioF then false
    else fracLe config.min_ratioF (ratioF a b)

/-- `diff._build_unchanged_lines`. -/
def _build_unchanged_lines (left right : NormalizedDocument) (i1 i2 j1 : Nat) :
    List DiffLine :=
  (List.range (i2 - i1)).map (fun offset =>
    let left_idx := i1 + offset
    let right_idx := j1 + offset
    DiffLine.mk ChangeType.unchanged (some (left_idx + 1)) (some (right_idx + 1))
      (left.lines.get? left_idx) (right.lines.get? right_idx) [])

/-- `diff._build_deleted_lines`. -/
def _build_deleted_lines (left : NormalizedDocument) (i1 i2 : Nat) : List DiffLine :=
  (List.range (i2 - i1)).map (fun offset =>
    let left_idx := i1 + offset
    DiffLine.mk ChangeType.deleted (some (left_idx + 1)) none
      (left.lines.get? left_idx) none [])

/-- `diff._build_inserted_lines`. -/
def _build_inserted_lines (right : NormalizedDocument) (j1 j2 : Nat) : List DiffLine :=
  (List.range (j2 - j1)).map (fun offset =>
    let right_idx := j1 + offset
    DiffLine.mk ChangeType.inserted none (some (right_idx + 1)) none
      (right.lines.get? right_idx) [])

/-- One positional pair of `_build_replaced_lines`: an Edited line when the
inline gate accepts, otherwise a Deleted line followed by an Inserted one. -/
def replacedPair (left_idx right_idx : Nat) (left_line right_line : String)
    (inline_config : Option InlineDiffConfig) : List DiffLine :=
  if ¬ _should_inline left_line right_line inline_config then
    [DiffLine.mk ChangeType.deleted (some (left_idx + 1)) none (some left_line) none [],
     DiffLine.mk ChangeType.inserted none (some (right_idx + 1)) none (some right_line) []]
  else
    [DiffLine.mk ChangeType.edited (some (left_idx + 1)) (some (right_idx + 1))
      (some left_line) (some right_line) (diff_inline left_line right_line)]

/-- `diff._build_replaced_lines`. -/
def _build_replaced_lines (left right : NormalizedDocument) (i1 i2 j1 j2 : Nat)
    (inline_config : Option InlineDiffConfig) : List DiffLine :=
  let left_span := (left.lines.drop i1).take (i2 - i1)
  let right_span := (right.lines.drop j1).take (j2 - j1)
  let pair_count := min left_span.length right_span.length
  ((List.range pair_count).map (fun offset =>
    replacedPair (i1 + offset) (j1 + offset)
      (left_span.getD offset "") (right_span.getD offset "") inline_config)).join ++
  (List.range (i2 - (i1 + pair_count))).map (fun off =>
    let leftover_idx := i1 + pair_count + off
    DiffLine.mk ChangeType.deleted (some (leftover_idx + 1)) none
      (left.lines.get? leftover_idx) none []) ++
  (List.range (j2 - (j1 + pair_count))).map (fun off =>
    let leftover_idx := j1 + pair_count + off
    DiffLine.mk ChangeType.inserted none (some (leftover_idx + 1)) none
      (right.lines.get? leftover_idx) [])

/-- `diff._make_hunk_header` (the declared `None` case never occurs). -/
def _make_hunk_header (lines : List DiffLine) (s e prev_left prev_right : Nat) :
    DiffLine :=
  let block := (lines.drop s).take (e + 1 - s)
  let left_numbers := block.filterMap (fun l => l.left_lineno)
  let right_numbers := block.filterMap (fun l => l.right_lineno)
  let left_start := left_numbers.head?.getD (prev_left + 1)
  let right_start := right_numbers.head?.getD (prev_right + 1)
  let left_len := left_numbers.length
  let right_len := right_numbers.length
  let header_text := "@@ -" ++ toString left_start ++ "," ++ toString left_len ++
    " +" ++ toString right_start ++ "," ++ toString right_len ++ " @@\n"
  DiffLine.mk ChangeType.skipped (some left_start) (some right_start)
    (some header_text) (some header_text) []

/-- The grouping of kept indices into maximal consecutive runs. -/
def buildBlocks (current_start current_end : Nat) : List Nat → List (Nat × Nat)
  | [] => [(current_start, current_end)]
  | idx :: rest =>
    if idx = current_end + 1 then buildBlocks current_start idx rest
    else (current_start, current_end) :: buildBlocks idx idx rest

/-- The final emission loop of `_apply_context`: one header then the block
lines per block, threading the last seen line numbers. -/
def emitBlocks (lines : List DiffLine) (prev_left prev_right : Nat) :
    List (Nat × Nat) → List DiffLine
  | [] => []
  | (s, e) :: rest =>
    let header := _make_hunk_header lines s e prev_left prev_right
    let block_lines := (lines.drop s).take (e + 1 - s)
    let left_candidates := block_lines.filterMap (fun l => l.left_lineno)
    let right_candidates := block_lines.filterMap (fun l => l.right_lineno)
    let pl := left_candidates.getLast?.getD prev_left
    let pr := right_candidates.getLast?.getD prev_right
    (header :: block_lines) ++ emitBlocks lines pl pr rest

/-- Whether the line at index `idx` is a change (kind not Unchanged). -/
def isChangeAt (lines : List DiffLine) (idx : Nat) : Bool :=
  match lines.get? idx with
  | some l => l.kind ≠ ChangeType.unchanged
  | none => false

/-- Whether the line at index `idx` exists and is Unchanged. -/
def isUnchangedAt (lines : List DiffLine) (idx : Nat) : Bool :=
  match lines.get? idx with
  | some l => l.kind = ChangeType.unchanged
  | none => false

/-- The `keep` marking of `_apply_context`: every change index, plus (when
`context > 0`) each Unchanged index within `context` positions of one. -/
def keepAt (lines : List DiffLine) (ctx : Nat) (change_indices : List Nat)
    (idx : Nat) : Bool :=
  isChangeAt lines idx ||
    (0 < ctx && isUnchangedAt lines idx &&
      change_indices.any (fun c => c ≤ idx + ctx && idx < c + ctx + 1))

/-- `diff._apply_context` (the negative-context `ValueError` is the spec's
`InvalidArgument`). -/
def _apply_context (lines : List DiffLine) (context : Option Int) :
    Except MdError (List DiffLine) :=
  match context with
  | none => Except.ok lines
  | some c =>
    if c < 0 then Except.error MdError.invalidArgument
    else if lines.isEmpty then Except.ok []
    else
      let ctx := c.toNat
      let change_indices :=
        (List.range lines.length).filter (fun idx => isChangeAt lines idx)
      if change_indices.isEmpty then Except.ok []
      else
        match (List.range lines.length).filter (keepAt lines ctx change_indices) with
        | [] => Except.ok []
        | k :: ks => Except.ok (emitBlocks lines 0 0 (buildBlocks k k ks))

/-- `diff.diff_normalized`. -/
def diff_normalized (left right : NormalizedDocument)
    (inline_config : Option InlineDiffConfig) (context : Option Int) :
    Except MdError DiffResult := do
  let ops := get_opcodes left.lines right.lines
  let lines := (ops.map (fun op =>
    match op.tag with
    | OpTag.equal => _build_unchanged_lines left right op.i1 op.i2 op.j1
    | OpTag.delete => _build_deleted_lines left op.i1 op.i2
    | OpTag.insert => _build_inserted_lines right op.j1 op.j2
    | OpTag.replace =>
      _build_replaced_lines left right op.i1 op.i2 op.j1 op.j2 inline_config)).join
  let filtered ← _apply_context lines context
  return DiffResult.mk left right filtered context

/-- `diff.diff`: normalize raw-text inputs as needed, then diff
(defaults: `left_id = "left"`, `right_id = "right"`,
`inline_config = None`, `context = None`). -/
def diff (left right : Sum String NormalizedDocument)
    (left_id right_id : String) (inline_config : Option InlineDiffConfig)
    (context : Option Int) : Except MdError DiffResult :=
  let left_doc := match left with
    | Sum.inl s => normalizeText s left_id
    | Sum.inr d => d
  let right_doc := match right with
    | Sum.inl s => normalizeText s right_id
    | Sum.inr d => d
  diff_normalized left_doc right_doc inline_config context

/-! ## Claim theorems -/

set_option maxRecDepth 10000

/-- Claim C1 (code bug): normalization is not idempotent.  On the input
`"hello\n***\n"` the normalizer emits `"hello\n---\n"` (the `***`
horizontal rule is canonicalized to `---`); re-normalizing that output
re-reads the emitted `---` as a setext-heading underline for `hello` and
produces `"## hello\n"`, so
`normalize(normalize(x).text).text ≠ normalize(x).text` (and the digest,
a function of the text, changes as well), contradicting the claim, the
spec's idempotence property, and the repository's own test suite
(`test_real_documents.py` asserts `second_pass.text == doc.text`). -/
theorem C1_normalize_not_idempotent :
    (normalizeText "hello\n***\n" "left").text = "hello\n---\n" ∧
    (normalizeText ((normalizeText "hello\n***\n" "left").text) "left").text =
      "## hello\n" ∧
    (normalizeText ((normalizeText "hello\n***\n" "left").text) "left").text ≠
      (normalizeText "hello\n***\n" "left").text := by
  refine ⟨by rfl, by rfl, by decide⟩

/-- Claim C9 (confirmed): `diff("value one\n", "value two\n")` yields
exactly one Edited line whose segments are
`[Unchanged("value "), Edited("one","two"), Unchanged("\n")]`. -/
theorem C9_diff_value_one_two :
    (diff (Sum.inl "value one\n") (Sum.inl "value two\n") "left" "right" none
        none).map (fun r => r.lines) =
    Except.ok [DiffLine.mk ChangeType.edited (some 1) (some 1) (some "value one\n")
      (some "value two\n")
      [InlineDiffSegment.mk ChangeType.unchanged "value " "value ",
       InlineDiffSegment.mk ChangeType.edited "one" "two",
       InlineDiffSegment.mk ChangeType.unchanged "\n" "\n"]] := by
  rfl

/-- Claim C7 (confirmed): `normalize` fails with the spec's `DecodingError`
on bytes that are not valid UTF-8 and with `UnsupportedInputKind` on an
input that is neither text, bytes, nor a readable stream; the diff
pipeline's context filter fails with `InvalidArgument` on a negative
context radius.  Each error is returned directly by the function that
detects it (the `Except` model of synchronous raising). -/
theorem C7_typed_errors :
    (∀ bs : List Nat, utf8Decode bs = none →
      normalize (InputValue.bytes bs) "src" = Except.error MdError.decodingError) ∧
    normalize InputValue.unsupported "src" = Except.error MdError.unsupportedInputKind ∧
    (∀ (lines : List DiffLine) (c : Int), c < 0 →
      _apply_context lines (some c) = Except.error MdError.invalidArgument) := by
  refine ⟨?_, rfl, ?_⟩
  · intro bs h
    simp only [normalize, _coerce_text, h, Except.bind]
    rfl
  · intro lines c hc
    simp only [_apply_context, if_pos hc]

/-- Witness for Claim C7 at concrete inputs: the byte `0xff` alone is not
valid UTF-8, and `-1` is a negative context radius. -/
theorem C7_typed_errors_witness :
    normalize (InputValue.bytes [255]) "src" = Except.error MdError.decodingError ∧
    _apply_context [] (some (-1)) = Except.error MdError.invalidArgument :=
  ⟨C7_typed_errors.1 [255] (by rfl), C7_typed_errors.2.2 [] (-1) (by decide)⟩

/-! ### Claim C10: blank input normalizes to a single newline line -/

theorem all_dropWhile (p q : Char → Bool) (l : List Char) (h : l.all p) :
    (l.dropWhile q).all p := by
  induction l with
  | nil => simp
  | cons c t ih =>
    simp only [List.all_cons, Bool.and_eq_true] at h
    rw [List.dropWhile_cons]
    split
    · exact ih h.2
    · simp [h.1, h.2]

theorem all_take (p : Char → Bool) (n : Nat) (l : List Char) (h : l.all p) :
    (l.take n).all p := by
  simp only [List.all_eq_true] at h ⊢
  exact fun x hx => h x (List.take_subset n l hx)

theorem all_drop (p : Char → Bool) (n : Nat) (l : List Char) (h : l.all p) :
    (l.drop n).all p := by
  simp only [List.all_eq_true] at h ⊢
  exact fun x hx => h x (List.drop_subset n l hx)

theorem all_replaceGo (p : Char → Bool) (pat repl : List Char) (hr : repl.all p) :
    ∀ fuel l, l.all p → (replaceGo pat repl fuel l).all p := by
  intro fuel
  induction fuel with
  | zero => intro l hl; exact hl
  | succ fuel ih =>
    intro l hl
    match l with
    | [] => simp [replaceGo]
    | c :: rest =>
      rw [replaceGo]
      split
      · rw [List.all_append]
        exact Bool.and_eq_true_iff.mpr ⟨hr, ih _ (all_drop p _ _ hl)⟩
      · simp only [List.all_cons, Bool.and_eq_true] at hl ⊢
        exact ⟨hl.1, ih rest hl.2⟩

set_option maxHeartbeats 1000000 in
theorem all_splitlinesGo (p : Char → Bool) :
    ∀ cur cs, cur.all p → cs.all p → ∀ l ∈ splitlinesGo cur cs, l.all p := by
  intro cur cs
  induction cur, cs using splitlinesGo.induct with
  | case1 cur hemp =>
    intro hc _ l hl
    rw [splitlinesGo] at hl
    simp_all
  | case2 cur hemp =>
    intro hc _ l hl
    rw [splitlinesGo] at hl
    simp only [if_neg hemp, List.mem_singleton] at hl
    subst hl
    simpa using hc
  | case3 cur rest ih =>
    intro hc hr l hl
    rw [splitlinesGo] at hl
    simp only [List.mem_cons] at hl
    rcases hl with h | h
    · subst h; simpa using hc
    · simp only [List.all_cons, Bool.and_eq_true] at hr
      exact ih rfl hr.2.2 l h
  | case4 cur c rest hover hbreak ih =>
    intro hc hr l hl
    rw [splitlinesGo] at hl
    · simp only [List.all_cons, Bool.and_eq_true] at hr
      rw [if_pos hbreak] at hl
      simp only [List.mem_cons] at hl
      rcases hl with h | h
      · subst h; simpa using hc
      · exact ih rfl hr.2 l h
    · exact hover
  | case5 cur c rest hover hbreak ih =>
    intro hc hr l hl
    rw [splitlinesGo] at hl
    · simp only [List.all_cons, Bool.and_eq_true] at hr
      rw [if_neg hbreak] at hl
      exact ih (by simp [hc, hr.1]) hr.2 l hl
    · exact hover

theorem strip_of_all_isSpace (l : List Char) (h : l.all pyIsSpace) : stripL l = [] := by
  have h1 : lstripL l = [] := by
    unfold lstripL
    induction l with
    | nil => simp
    | cons c t ih =>
      simp only [List.all_cons, Bool.and_eq_true] at h
      rw [List.dropWhile_cons, if_pos h.1]
      exact ih h.2
  unfold stripL
  rw [h1]
  rfl

theorem pyStrip_of_all_isSpace (line : String) (h : line.data.all pyIsSpace) :
    pyStrip line = "" := by
  unfold pyStrip
  rw [strip_of_all_isSpace line.data h]

theorem normLoop_blank (recB : String → String × Stats) (lines : List String)
    (hb : ∀ l ∈ lines, pyStrip l = "") :
    ∀ fuel i stats, normLoop recB lines fuel i [] stats = ([], stats) := by
  intro fuel
  induction fuel with
  | zero => intro i stats; rfl
  | succ fuel ih =>
    intro i stats
    rw [normLoop]
    split
    · rename_i hlt
      have hstrip : pyStrip (lines.getD i "") = "" := by
        rw [List.getD_eq_getElem?_getD]
        match hg : lines[i]? with
        | some line =>
          simp only [Option.getD_some]
          exact hb line (List.getElem?_mem hg)
        | none => rfl
      simp only [hstrip, if_pos rfl]
      exact ih (i + 1) stats
    · rfl

theorem normalize_blocks_blank (fuel : Nat) (text : String)
    (h : text.data.all pyIsSpace) :
    _normalize_blocks (fuel + 1) text = ("", emptyStats) := by
  rw [_normalize_blocks]
  have hlines : ∀ l ∈ pySplitlines text, pyStrip l = "" := by
    intro l hl
    unfold pySplitlines at hl
    simp only [List.mem_map] at hl
    obtain ⟨l0, hl0, rfl⟩ := hl
    exact pyStrip_of_all_isSpace _ (all_splitlinesGo pyIsSpace [] text.data rfl h l0 hl0)
  rw [normLoop_blank (_normalize_blocks fuel) (pySplitlines text) hlines]
  rfl

/-- Claim C10 (confirmed): normalizing the empty string, or any input all
of whose characters are whitespace (equivalently: consisting solely of
blank lines), yields the canonical text `"\n"` and the one-element line
list `["\n"]` — never an empty line sequence. -/
theorem C10_blank_input (s sid : String) (h : s.data.all pyIsSpace) :
    (normalizeText s sid).lines = ["\n"] ∧ (normalizeText s sid).text = "\n" := by
  have hnl : ("\n" : String).data.all pyIsSpace := by decide
  have ht : (_strip_bom (_normalize_line_endings s)).data.all pyIsSpace := by
    unfold _strip_bom _normalize_line_endings pyLstripBom pyReplace
    exact all_dropWhile _ _ _
      (all_replaceGo _ _ _ hnl _ _ (all_replaceGo _ _ _ hnl _ _ h))
  unfold normalizeText
  dsimp only
  rw [normalize_blocks_blank _ _ ht]
  exact ⟨rfl, rfl⟩

/-- Witness for Claim C10 at the empty string and at a two-blank-line
input. -/
theorem C10_blank_input_witness :
    (normalizeText "" "src").lines = ["\n"] ∧
    (normalizeText " \n\t\n" "src").lines = ["\n"] ∧
    (normalizeText " \n\t\n" "src").text = "\n" :=
  ⟨(C10_blank_input "" "src" (by decide)).1,
   (C10_blank_input " \n\t\n" "src" (by decide)).1,
   (C10_blank_input " \n\t\n" "src" (by decide)).2⟩

/-! ### Claim C3: the fenced-code-block closing rule -/

/-- The closing condition as the code actually implements it, rendered
from the amended claim's words: the line's first non-whitespace run
consists of three or more of the opening fence character (its length
relative to the opening fence is irrelevant). -/
def specClosesFence (mc : Char) (line : String) : Bool :=
  3 ≤ ((pyLstrip line).data.takeWhile (fun c => c = mc)).length

theorem takeWhile_all_pred (p : Char → Bool) (l : List Char) :
    (l.takeWhile p).all p = true := by
  induction l with
  | nil => simp
  | cons c t ih =>
    rw [List.takeWhile_cons]
    split
    · simp_all
    · simp

theorem takeWhile_head_of_ne_nil (p : Char → Bool) (l : List Char) (d : Char)
    (h : l.takeWhile p ≠ []) : p ((l.takeWhile p).headD d) = true := by
  match l with
  | [] => simp at h
  | c :: t =>
    rw [List.takeWhile_cons] at h ⊢
    by_cases hp : p c = true
    · rw [if_pos hp]
      simpa using hp
    · rw [if_neg hp] at h
      simp at h

theorem takeWhile_pos_head (p : Char → Bool) (t : List Char)
    (h : t.takeWhile p ≠ []) : ∃ c r, t = c :: r ∧ p c = true := by
  match t with
  | [] => simp at h
  | c :: r =>
    rw [List.takeWhile_cons] at h
    by_cases hp : p c = true
    · exact ⟨c, r, rfl, hp⟩
    · rw [if_neg hp] at h
      simp at h

theorem takeWhile_eq_nil_of_head_false (p : Char → Bool) (c : Char) (t : List Char)
    (h : p c = false) : (c :: t).takeWhile p = [] := by
  rw [List.takeWhile_cons]
  simp [h]

theorem spaceTab_isSpace (c : Char) (h : isSpaceOrTab c = true) : pyIsSpace c = true := by
  have hc : c = ' ' ∨ c = '\t' := by simpa [isSpaceOrTab] using h
  rcases hc with rfl | rfl <;> decide

theorem lstrip_no_space_tab (l : List Char) :
    (lstripL l).takeWhile isSpaceOrTab = [] ∧
    (lstripL l).dropWhile isSpaceOrTab = lstripL l := by
  match hd : lstripL l with
  | [] => simp
  | c :: t =>
    have hc : pyIsSpace c = false := by
      apply head?_dropWhile_not pyIsSpace l
      rw [show l.dropWhile pyIsSpace = lstripL l from rfl, hd]
      rfl
    have hst : isSpaceOrTab c = false := by
      cases hs : isSpaceOrTab c
      · rfl
      · simp [spaceTab_isSpace c hs] at hc
    constructor
    · exact takeWhile_eq_nil_of_head_false _ _ _ hst
    · rw [List.dropWhile_cons, if_neg (by simp [hst])]

/-- `FENCE_RE` applied to an already left-stripped line: the indent group is
empty and the marker is the leading homogeneous run. -/
theorem fenceRe_pyLstrip (line : String) :
    fenceRe (pyLstrip line) =
      (if 3 ≤ ((lstripL line.data).takeWhile (· = '`')).length then
        some ⟨⟨[]⟩, ⟨(lstripL line.data).takeWhile (· = '`')⟩,
              ⟨(lstripL line.data).dropWhile (· = '`')⟩⟩
      else if 3 ≤ ((lstripL line.data).takeWhile (· = '~')).length then
        some ⟨⟨[]⟩, ⟨(lstripL line.data).takeWhile (· = '~')⟩,
              ⟨(lstripL line.data).dropWhile (· = '~')⟩⟩
      else none) := by
  have hl := lstrip_no_space_tab line.data
  unfold fenceRe
  rw [show (pyLstrip line).data = lstripL line.data from rfl, hl.1, hl.2]

/-- Bridge: a line with no fence match never satisfies the spec-side
closing predicate (for a backtick or tilde marker character). -/
theorem specCloses_of_fence_none (mc : Char) (hmc : mc = '`' ∨ mc = '~')
    (line : String) (h : _match_fence_start line = none) :
    specClosesFence mc line = false := by
  unfold _match_fence_start at h
  rw [fenceRe_pyLstrip] at h
  split at h
  · exact absurd h (by simp)
  · split at h
    · exact absurd h (by simp)
    · rename_i hbt htd
      rcases hmc with rfl | rfl
      · unfold specClosesFence
        simpa using hbt
      · unfold specClosesFence
        simpa using htd

/-- Bridge: on a line with a fence match, the scan's closing test agrees
with `specClosesFence`, and when it closes, the recorded marker is the
line's leading homogeneous run. -/
theorem specCloses_of_fence_some (mc : Char) (hmc : mc = '`' ∨ mc = '~')
    (line : String) (cm : FenceMatch) (h : _match_fence_start line = some cm) :
    ((cm.marker.data.headD ' ' = mc ∧ cm.marker.data.all (· = mc)) ↔
      specClosesFence mc line = true) ∧
    (specClosesFence mc line = true →
      cm.marker = ⟨(pyLstrip line).data.takeWhile (fun c => c = mc)⟩) := by
  unfold _match_fence_start at h
  rw [fenceRe_pyLstrip] at h
  have hdata : (pyLstrip line).data = lstripL line.data := rfl
  split at h
  · rename_i hbt
    simp only [Option.some.injEq] at h
    subst h
    have hne : (lstripL line.data).takeWhile (· = '`') ≠ [] := by
      intro hx
      rw [hx] at hbt
      simp at hbt
    obtain ⟨c, r, hcr, hpc⟩ := takeWhile_pos_head _ _ hne
    have hc : c = '`' := by simpa using hpc
    subst hc
    have htake : (lstripL line.data).takeWhile (fun x => decide (x = '`')) =
        '`' :: r.takeWhile (fun x => decide (x = '`')) := by
      rw [hcr, List.takeWhile_cons]
      simp
    rcases hmc with rfl | rfl
    · refine ⟨⟨fun _ => ?_, fun _ => ⟨?_, ?_⟩⟩, fun _ => rfl⟩
      · unfold specClosesFence
        rw [hdata]
        simpa using hbt
      · show ((lstripL line.data).takeWhile (fun x => decide (x = '`'))).headD ' ' = '`'
        rw [htake]
        rfl
      · exact takeWhile_all_pred _ _
    · have hspecF : specClosesFence '~' line = false := by
        unfold specClosesFence
        rw [hdata, hcr,
          takeWhile_eq_nil_of_head_false (fun c => decide (c = '~')) '`' r (by decide)]
        rfl
      refine ⟨⟨fun hcond => ?_, fun hs => ?_⟩, fun hs => ?_⟩
      · exfalso
        have h1 : ('`' :: r.takeWhile (fun x => decide (x = '`'))).headD ' ' = '~' := by
          rw [← htake]
          exact hcond.1
        simp at h1
      · rw [hspecF] at hs
        simp at hs
      · rw [hspecF] at hs
        simp at hs
  · split at h
    · rename_i hbt htd
      simp only [Option.some.injEq] at h
      subst h
      have hne : (lstripL line.data).takeWhile (· = '~') ≠ [] := by
        intro hx
        rw [hx] at htd
        simp at htd
      obtain ⟨c, r, hcr, hpc⟩ := takeWhile_pos_head _ _ hne
      have hc : c = '~' := by simpa using hpc
      subst hc
      have htake : (lstripL line.data).takeWhile (fun x => decide (x = '~')) =
          '~' :: r.takeWhile (fun x => decide (x = '~')) := by
        rw [hcr, List.takeWhile_cons]
        simp
      rcases hmc with rfl | rfl
      · have hspecF : specClosesFence '`' line = false := by
          unfold specClosesFence
          rw [hdata]
          simpa using hbt
        refine ⟨⟨fun hcond => ?_, fun hs => ?_⟩, fun hs => ?_⟩
        · exfalso
          have h1 : ('~' :: r.takeWhile (fun x => decide (x = '~'))).headD ' ' = '`' := by
            rw [← htake]
            exact hcond.1
          simp at h1
        · rw [hspecF] at hs
          simp at hs
        · rw [hspecF] at hs
          simp at hs
      · refine ⟨⟨fun _ => ?_, fun _ => ⟨?_, ?_⟩⟩, fun _ => rfl⟩
        · unfold specClosesFence
          rw [hdata]
          simpa using htd
        · show ((lstripL line.data).takeWhile (fun x => decide (x = '~'))).headD ' ' = '~'
          rw [htake]
          rfl
        · exact takeWhile_all_pred _ _
    · exact absurd h (by simp)

/-- The fence body scan finds exactly the first line satisfying
`specClosesFence`, collects the lines before it right-stripped of
newlines, and records the closing line's homogeneous run. -/
theorem fenceScanGo_found (lines : List String) (mc : Char) (hmc : mc = '`' ∨ mc = '~') :
    ∀ fuel i d, i + fuel = lines.length →
      (lines.drop i).findIdx? (specClosesFence mc) = some d →
      fenceScanGo lines mc fuel i =
        (((lines.drop i).take d).map pyRstripNewlines, i + d,
         some ⟨(pyLstrip (lines.getD (i + d) "")).data.takeWhile (fun c => c = mc)⟩) := by
  intro fuel
  induction fuel with
  | zero =>
    intro i d hi hfind
    rw [List.drop_eq_nil_of_le (by omega)] at hfind
    simp at hfind
  | succ fuel ih =>
    intro i d hi hfind
    have hlt : i < lines.length := by omega
    have hdrop : lines.drop i = lines.getD i "" :: lines.drop (i + 1) := by
      rw [List.getD_eq_getElem lines "" hlt]
      exact List.drop_eq_getElem_cons hlt
    rw [hdrop] at hfind ⊢
    rw [List.findIdx?_cons, List.findIdx?_succ] at hfind
    by_cases hp : specClosesFence mc (lines.getD i "") = true
    · rw [if_pos hp] at hfind
      have hd0 : d = 0 := by simpa using hfind.symm
      subst hd0
      rw [fenceScanGo, if_pos hlt]
      dsimp only
      rcases hfm : _match_fence_start (lines.getD i "") with _ | cm
      · rw [specCloses_of_fence_none mc hmc _ hfm] at hp
        simp at hp
      · have hcnd : cm.marker.data.headD ' ' = mc ∧ cm.marker.data.all (· = mc) :=
          ((specCloses_of_fence_some mc hmc _ cm hfm).1).mpr hp
        dsimp only
        rw [if_pos hcnd, (specCloses_of_fence_some mc hmc _ cm hfm).2 hp]
        simp
    · rw [if_neg hp] at hfind
      obtain ⟨d2, hfd2, hdd⟩ := Option.map_eq_some'.mp hfind
      subst hdd
      have hrec := ih (i + 1) d2 (by omega) hfd2
      have harith : i + 1 + d2 = i + (d2 + 1) := by omega
      rw [fenceScanGo, if_pos hlt]
      dsimp only
      rcases hfm : _match_fence_start (lines.getD i "") with _ | cm
      · dsimp only
        rw [hrec]
        simp [harith]
      · have hcndF : ¬ (cm.marker.data.headD ' ' = mc ∧ cm.marker.data.all (· = mc)) := by
          intro hcnd
          exact hp (((specCloses_of_fence_some mc hmc _ cm hfm).1).mp hcnd)
        dsimp only
        rw [if_neg hcndF, hrec]
        simp [harith]

/-- When no line satisfies `specClosesFence`, the scan consumes everything
(right-stripping newlines) and reports no closer. -/
theorem fenceScanGo_notfound (lines : List String) (mc : Char) (hmc : mc = '`' ∨ mc = '~') :
    ∀ fuel i, i + fuel = lines.length →
      (lines.drop i).findIdx? (specClosesFence mc) = none →
      fenceScanGo lines mc fuel i =
        ((lines.drop i).map pyRstripNewlines, lines.length, none) := by
  intro fuel
  induction fuel with
  | zero =>
    intro i hi hfind
    have hi2 : i = lines.length := by omega
    rw [fenceScanGo, List.drop_eq_nil_of_le (by omega)]
    rw [hi2]
    rfl
  | succ fuel ih =>
    intro i hi hfind
    have hlt : i < lines.length := by omega
    have hdrop : lines.drop i = lines.getD i "" :: lines.drop (i + 1) := by
      rw [List.getD_eq_getElem lines "" hlt]
      exact List.drop_eq_getElem_cons hlt
    rw [hdrop] at hfind ⊢
    rw [List.findIdx?_cons, List.findIdx?_succ] at hfind
    by_cases hp : specClosesFence mc (lines.getD i "") = true
    · rw [if_pos hp] at hfind
      simp at hfind
    · rw [if_neg hp] at hfind
      have hfd2 : (lines.drop (i + 1)).findIdx? (specClosesFence mc) = none :=
        Option.map_eq_none'.mp hfind
      have hrec := ih (i + 1) (by omega) hfd2
      rw [fenceScanGo, if_pos hlt]
      dsimp only
      rcases hfm : _match_fence_start (lines.getD i "") with _ | cm
      · dsimp only
        rw [hrec]
        simp
      · have hcndF : ¬ (cm.marker.data.headD ' ' = mc ∧ cm.marker.data.all (· = mc)) := by
          intro hcnd
          exact hp (((specCloses_of_fence_some mc hmc _ cm hfm).1).mp hcnd)
        dsimp only
        rw [if_neg hcndF, hrec]
        simp

/-- Claim C3 (counterexample): the claimed closing rule says a homogeneous
fence of the same character closes the block only when its length is at
least the opening fence's length, and that body lines are right-trimmed.
In the code, a block opened by a five-backtick fence is closed by a
three-backtick line (so the later line "y" is not part of the block), and
the body line "x " keeps its trailing space. -/
theorem C3_close_shorter_counterexample :
    _normalize_code_fence ["`````", "x ", "```", "y"] 0 ⟨"", "`````", ""⟩ =
      (["```", "x ", "```"], 3, 1) ∧
    "y" ∉ (_normalize_code_fence ["`````", "x ", "```", "y"] 0 ⟨"", "`````", ""⟩).1 ∧
    "x " ∈ (_normalize_code_fence ["`````", "x ", "```", "y"] 0 ⟨"", "`````", ""⟩).1 ∧
    "x" ∉ (_normalize_code_fence ["`````", "x ", "```", "y"] 0 ⟨"", "`````", ""⟩).1 := by
  refine ⟨rfl, by decide, by decide, by decide⟩

/-- Claim C3 (amended): after an opening fence, body lines are passed
through with only trailing newlines stripped (trailing spaces kept) until
the first line whose leading non-whitespace run is three or more of the
opening fence character — regardless of how its length compares to the
opening fence. The opening fence is rewritten to three backticks plus the
stripped info string, counted as a transformation when the opening marker
was not exactly three backticks; a closing line is counted as a
transformation when its recorded marker is not exactly three backticks;
an unterminated fence consumes the rest of the block, is auto-closed, and
is counted as a transformation. -/
theorem C3_fence_close_rule (lines : List String) (start : Nat) (m : FenceMatch)
    (hstart : start < lines.length)
    (hmc : m.marker.data.headD ' ' = '`' ∨ m.marker.data.headD ' ' = '~') :
    (∀ d, (lines.drop (start + 1)).findIdx?
        (specClosesFence (m.marker.data.headD ' ')) = some d →
      _normalize_code_fence lines start m =
        ((if pyStrip m.rest ≠ "" then "``` " ++ pyStrip m.rest else "```") ::
           ((lines.drop (start + 1)).take d).map pyRstripNewlines ++ ["```"],
         d + 2,
         (if m.marker ≠ "```" then 1 else 0) +
           if (⟨(pyLstrip (lines.getD (start + 1 + d) "")).data.takeWhile
                 (fun c => c = m.marker.data.headD ' ')⟩ : String) ≠ "```"
           then 1 else 0)) ∧
    ((lines.drop (start + 1)).findIdx?
        (specClosesFence (m.marker.data.headD ' ')) = none →
      _normalize_code_fence lines start m =
        ((if pyStrip m.rest ≠ "" then "``` " ++ pyStrip m.rest else "```") ::
           (lines.drop (start + 1)).map pyRstripNewlines ++ ["```"],
         lines.length - start + 1,
         (if m.marker ≠ "```" then 1 else 0) + 1)) := by
  constructor
  · intro d hfd
    have hscan := fenceScanGo_found lines (m.marker.data.headD ' ') hmc
      (lines.length - (start + 1)) (start + 1) d (by omega) hfd
    unfold _normalize_code_fence fence_scan
    dsimp only
    rw [hscan]
    dsimp only
    have harith : start + 1 + d - start + 1 = d + 2 := by omega
    rw [harith]
  · intro hfd
    have hscan := fenceScanGo_notfound lines (m.marker.data.headD ' ') hmc
      (lines.length - (start + 1)) (start + 1) (by omega) hfd
    unfold _normalize_code_fence fence_scan
    dsimp only
    rw [hscan]

theorem C3_fence_close_rule_witness :
    _normalize_code_fence ["```py", "a", "```", "z"] 0 ⟨"", "```", "py"⟩ =
      (["``` py", "a", "```"], 3, 0) ∧
    _normalize_code_fence ["~~~", "b"] 0 ⟨"", "~~~", ""⟩ =
      (["```", "b", "```"], 3, 2) := by
  constructor
  · have h := (C3_fence_close_rule ["```py", "a", "```", "z"] 0 ⟨"", "```", "py"⟩
      (by decide) (Or.inl (by decide))).1 1 (by decide)
    rw [h]
    rfl
  · have h := (C3_fence_close_rule ["~~~", "b"] 0 ⟨"", "~~~", ""⟩
      (by decide) (Or.inr (by decide))).2 (by decide)
    rw [h]
    rfl

/-! ### Claim C4: expansion of a replace opcode -/

/-- The claim's rendering of replace expansion: pair the two spans
positionally with `zip` (so exactly `min` of the span lengths pairs); an
eligible pair yields one Edited line with inline segments, an ineligible
pair a Deleted line immediately followed by an Inserted line with no
segments; then trailing Deleted lines for the unpaired left span and
trailing Inserted lines for the unpaired right span, in that order. -/
def replaceExpansionSpec (left right : NormalizedDocument) (i1 i2 j1 j2 : Nat)
    (cfg : Option InlineDiffConfig) : List DiffLine :=
  let left_span := (left.lines.drop i1).take (i2 - i1)
  let right_span := (right.lines.drop j1).take (j2 - j1)
  let pair_count := min left_span.length right_span.length
  ((left_span.zip right_span).enum.map (fun p =>
    if _should_inline p.2.1 p.2.2 cfg then
      [DiffLine.mk ChangeType.edited (some (i1 + p.1 + 1)) (some (j1 + p.1 + 1))
        (some p.2.1) (some p.2.2) (diff_inline p.2.1 p.2.2)]
    else
      [DiffLine.mk ChangeType.deleted (some (i1 + p.1 + 1)) none (some p.2.1) none [],
       DiffLine.mk ChangeType.inserted none (some (j1 + p.1 + 1)) none (some p.2.2) []])).join ++
  (left_span.drop pair_count).enum.map (fun p =>
    DiffLine.mk ChangeType.deleted (some (i1 + pair_count + p.1 + 1)) none
      (some p.2) none []) ++
  (right_span.drop pair_count).enum.map (fun p =>
    DiffLine.mk ChangeType.inserted none (some (j1 + pair_count + p.1 + 1)) none
      (some p.2) [])

/-- Claim C4: `_build_replaced_lines` coincides with the claimed
positional-pairing expansion whenever the opcode spans lie inside the two
documents (the opcodes produced by the matcher always do). -/
theorem C4_replace_expansion (left right : NormalizedDocument) (i1 i2 j1 j2 : Nat)
    (cfg : Option InlineDiffConfig)
    (hi : i1 ≤ i2) (hi2 : i2 ≤ left.lines.length)
    (hj : j1 ≤ j2) (hj2 : j2 ≤ right.lines.length) :
    _build_replaced_lines left right i1 i2 j1 j2 cfg =
      replaceExpansionSpec left right i1 i2 j1 j2 cfg := by
  unfold _build_replaced_lines replaceExpansionSpec
  dsimp only
  have hLlen : ((left.lines.drop i1).take (i2 - i1)).length = i2 - i1 := by
    rw [List.length_take, List.length_drop]
    exact min_eq_left (by omega)
  have hRlen : ((right.lines.drop j1).take (j2 - j1)).length = j2 - j1 := by
    rw [List.length_take, List.length_drop]
    exact min_eq_left (by omega)
  have hpc : min ((left.lines.drop i1).take (i2 - i1)).length
      ((right.lines.drop j1).take (j2 - j1)).length = min (i2 - i1) (j2 - j1) := by
    rw [hLlen, hRlen]
  rw [hpc]
  obtain ⟨pc, hpc1, hpc2, hpcrw⟩ :
      ∃ pc, pc ≤ i2 - i1 ∧ pc ≤ j2 - j1 ∧ min (i2 - i1) (j2 - j1) = pc :=
    ⟨min (i2 - i1) (j2 - j1), min_le_left _ _, min_le_right _ _, rfl⟩
  rw [hpcrw]
  congr 1
  · congr 1
    · refine congrArg List.join ?_
      apply List.ext_getElem
      · simp only [List.length_map, List.length_range, List.enum_length,
          List.length_zip, hLlen, hRlen]
        exact hpcrw.symm
      · intro n h1 h2
        simp only [List.length_map, List.length_range] at h1
        have hnL : n < ((left.lines.drop i1).take (i2 - i1)).length := by
          omega
        have hnR : n < ((right.lines.drop j1).take (j2 - j1)).length := by
          omega
        rw [List.getElem_map, List.getElem_map, List.getElem_range,
          List.getElem_enum, List.getElem_zip]
        rw [List.getD_eq_getElem _ _ hnL, List.getD_eq_getElem _ _ hnR]
        unfold replacedPair
        simp only [List.getElem_take, List.getElem_drop]
        have hbL : i1 + n < left.lines.length := by omega
        have hbR : j1 + n < right.lines.length := by omega
        by_cases hs : _should_inline (left.lines[i1 + n])
            (right.lines[j1 + n]) cfg = true
        · rw [if_neg (by simp [hs]), if_pos hs]
        · rw [if_pos (by simp [hs]), if_neg hs]
    · apply List.ext_getElem
      · simp only [List.length_map, List.length_range, List.enum_length,
          List.length_drop, hLlen]
        omega
      · intro n h1 h2
        simp only [List.length_map, List.length_range] at h1
        simp only [List.length_map, List.enum_length, List.length_drop, hLlen] at h2
        rw [List.getElem_map, List.getElem_map, List.getElem_range,
          List.getElem_enum]
        have hb1 : n < (((left.lines.drop i1).take (i2 - i1)).drop pc).length := by
          simp only [List.length_drop, hLlen]
          omega
        have hb2 : i1 + (pc + n) < left.lines.length := by omega
        have hget : (((left.lines.drop i1).take (i2 - i1)).drop pc)[n] =
            left.lines[i1 + (pc + n)] := by
          rw [List.getElem_drop, List.getElem_take, List.getElem_drop]
        rw [hget]
        have hidx : i1 + pc + n = i1 + (pc + n) := by omega
        have hsome : left.lines.get? (i1 + pc + n) =
            some (left.lines[i1 + (pc + n)]) := by
          rw [hidx, List.get?_eq_getElem?, List.getElem?_eq_getElem (by omega)]
        rw [hsome]
  · apply List.ext_getElem
    · simp only [List.length_map, List.length_range, List.enum_length,
        List.length_drop, hRlen]
      omega
    · intro n h1 h2
      simp only [List.length_map, List.length_range] at h1
      simp only [List.length_map, List.enum_length, List.length_drop, hRlen] at h2
      rw [List.getElem_map, List.getElem_map, List.getElem_range,
        List.getElem_enum]
      have hb1 : n < (((right.lines.drop j1).take (j2 - j1)).drop pc).length := by
        simp only [List.length_drop, hRlen]
        omega
      have hb2 : j1 + (pc + n) < right.lines.length := by omega
      have hget : (((right.lines.drop j1).take (j2 - j1)).drop pc)[n] =
          right.lines[j1 + (pc + n)] := by
        rw [List.getElem_drop, List.getElem_take, List.getElem_drop]
      rw [hget]
      have hidx : j1 + pc + n = j1 + (pc + n) := by omega
      have hsome : right.lines.get? (j1 + pc + n) =
          some (right.lines[j1 + (pc + n)]) := by
        rw [hidx, List.get?_eq_getElem?, List.getElem?_eq_getElem (by omega)]
      rw [hsome]

theorem C4_replace_expansion_witness :
    _build_replaced_lines
        (NormalizedDocument.mk "L" ["a\n", "b\n"] (NormalizationMetadata.mk 0 0 (fun _ => 0)) "")
        (NormalizedDocument.mk "R" ["a\n"] (NormalizationMetadata.mk 0 0 (fun _ => 0)) "")
        0 2 0 1 none =
      replaceExpansionSpec
        (NormalizedDocument.mk "L" ["a\n", "b\n"] (NormalizationMetadata.mk 0 0 (fun _ => 0)) "")
        (NormalizedDocument.mk "R" ["a\n"] (NormalizationMetadata.mk 0 0 (fun _ => 0)) "")
        0 2 0 1 none :=
  C4_replace_expansion _ _ 0 2 0 1 none (by decide) (by decide) (by decide) (by decide)

/-! ### Claims C5 and C6: context windowing -/

/-- The number of maximal contiguous runs in a sorted list of indices. -/
def runCount : List Nat → Nat
  | [] => 0
  | [_] => 1
  | a :: b :: rest => (if b = a + 1 then 0 else 1) + runCount (b :: rest)

theorem isChangeAt_getElem (lines : List DiffLine) (j : Nat) (h : j < lines.length) :
    isChangeAt lines j = decide (lines[j].kind ≠ ChangeType.unchanged) := by
  unfold isChangeAt
  rw [List.get?_eq_getElem?, List.getElem?_eq_getElem h]

theorem slice_filter_change (lines : List DiffLine) (a len : Nat)
    (h : ∀ j, a ≤ j → j < a + len → isChangeAt lines j = true) :
    ((lines.drop a).take len).filter (fun l => decide (l.kind ≠ ChangeType.unchanged)) =
      (lines.drop a).take len := by
  apply List.filter_eq_self.mpr
  intro x hx
  obtain ⟨i, hi, hxi⟩ := List.mem_iff_getElem.mp hx
  have hlen : i < len ∧ a + i < lines.length := by
    constructor <;>
      (simp only [List.length_take, List.length_drop] at hi; omega)
  have hai : a + i < lines.length := hlen.2
  have hx2 : x = lines[a + i] := by
    rw [← hxi, List.getElem_take, List.getElem_drop]
  have hc := h (a + i) (by omega) (by omega)
  rw [isChangeAt_getElem lines (a + i) hai] at hc
  rw [hx2]
  exact hc

theorem slice_filter_nochange (lines : List DiffLine) (a len : Nat)
    (h : ∀ j, a ≤ j → j < a + len → isChangeAt lines j = false) :
    ((lines.drop a).take len).filter (fun l => decide (l.kind ≠ ChangeType.unchanged)) = [] := by
  apply List.filter_eq_nil_iff.mpr
  intro x hx
  obtain ⟨i, hi, hxi⟩ := List.mem_iff_getElem.mp hx
  have hlen : i < len ∧ a + i < lines.length := by
    constructor <;>
      (simp only [List.length_take, List.length_drop] at hi; omega)
  have hai : a + i < lines.length := hlen.2
  have hx2 : x = lines[a + i] := by
    rw [← hxi, List.getElem_take, List.getElem_drop]
  have hc := h (a + i) (by omega) (by omega)
  rw [isChangeAt_getElem lines (a + i) hai] at hc
  rw [hx2]
  simpa using hc

theorem drop_filter_nochange (lines : List DiffLine) (a : Nat)
    (h : ∀ j, a ≤ j → isChangeAt lines j = false) :
    (lines.drop a).filter (fun l => decide (l.kind ≠ ChangeType.unchanged)) = [] := by
  apply List.filter_eq_nil_iff.mpr
  intro x hx
  obtain ⟨i, hi, hxi⟩ := List.mem_iff_getElem.mp hx
  have hlen : a + i < lines.length := by
    simp only [List.length_drop] at hi
    omega
  have hx2 : x = lines[a + i] := by
    rw [← hxi, List.getElem_drop]
  have hc := h (a + i) (by omega)
  rw [isChangeAt_getElem lines (a + i) hlen] at hc
  rw [hx2]
  simpa using hc

/-- Joining the line slices of the maximal-run grouping recovers exactly
the change lines from position `cs` on. -/
theorem buildBlocks_join (lines : List DiffLine) :
    ∀ ks cs ce, cs ≤ ce →
      (∀ j, cs ≤ j → j ≤ ce → isChangeAt lines j = true) →
      List.Pairwise (· < ·) (ce :: ks) →
      (∀ x ∈ ks, isChangeAt lines x = true) →
      (∀ j, ce < j → isChangeAt lines j = true → j ∈ ks) →
      ((buildBlocks cs ce ks).map
          (fun be => (lines.drop be.1).take (be.2 + 1 - be.1))).join =
        (lines.drop cs).filter (fun l => decide (l.kind ≠ ChangeType.unchanged)) := by
  intro ks
  induction ks with
  | nil =>
    intro cs ce hle hall hpw hchg hcomp
    rw [buildBlocks]
    simp only [List.map_cons, List.map_nil, List.join, List.flatten_cons,
      List.flatten_nil, List.append_nil]
    conv_rhs => rw [show lines.drop cs =
      (lines.drop cs).take (ce + 1 - cs) ++ (lines.drop cs).drop (ce + 1 - cs) from
      (List.take_append_drop _ _).symm]
    rw [List.filter_append]
    rw [slice_filter_change lines cs (ce + 1 - cs) (by
      intro j hj1 hj2
      exact hall j hj1 (by omega))]
    rw [List.drop_drop]
    rw [show cs + (ce + 1 - cs) = ce + 1 from by omega]
    rw [drop_filter_nochange lines (ce + 1) (by
      intro j hj
      by_contra hne
      have ht : isChangeAt lines j = true := by
        cases hv : isChangeAt lines j
        · exact absurd hv hne
        · rfl
      exact absurd (hcomp j (by omega) ht) (List.not_mem_nil j))]
    rw [List.append_nil]
  | cons idx rest ih =>
    intro cs ce hle hall hpw hchg hcomp
    simp only [List.join] at ih
    have hpw2 := (List.pairwise_cons.mp hpw)
    have hceidx : ce < idx := hpw2.1 idx (by simp)
    have hpwrest := hpw2.2
    rw [buildBlocks]
    by_cases hconsec : idx = ce + 1
    · rw [if_pos hconsec]
      apply ih cs idx (by omega)
      · intro j hj1 hj2
        by_cases hje : j ≤ ce
        · exact hall j hj1 hje
        · have hji : j = idx := by omega
          rw [hji]
          exact hchg idx (by simp)
      · exact hpwrest
      · intro x hx
        exact hchg x (by simp [hx])
      · intro j hj1 hj2
        have hm := hcomp j (by omega) hj2
        simp only [List.mem_cons] at hm
        rcases hm with h | h
        · omega
        · exact h
    · rw [if_neg hconsec]
      have hlt : ce + 1 < idx := by omega
      simp only [List.map_cons, List.join, List.flatten_cons]
      rw [ih idx idx (by omega) (by
          intro j hj1 hj2
          have hji : j = idx := by omega
          rw [hji]
          exact hchg idx (by simp))
        (List.pairwise_cons.mpr ⟨fun b hb => (List.pairwise_cons.mp hpwrest).1 b hb,
          (List.pairwise_cons.mp hpwrest).2⟩)
        (fun x hx => hchg x (by simp [hx]))
        (by
          intro j hj1 hj2
          have hm := hcomp j (by omega) hj2
          simp only [List.mem_cons] at hm
          rcases hm with h | h
          · omega
          · exact h)]
      conv_rhs => rw [show lines.drop cs =
        (lines.drop cs).take (idx - cs) ++ (lines.drop cs).drop (idx - cs) from
        (List.take_append_drop _ _).symm]
      rw [List.filter_append]
      rw [List.drop_drop]
      rw [show cs + (idx - cs) = idx from by omega]
      rw [show idx - cs = (ce + 1 - cs) + (idx - (ce + 1)) from by omega]
      rw [List.take_add]
      rw [List.filter_append]
      rw [slice_filter_change lines cs (ce + 1 - cs) (by
        intro j hj1 hj2
        exact hall j hj1 (by omega))]
      rw [List.drop_drop]
      rw [show cs + (ce + 1 - cs) = ce + 1 from by omega]
      rw [slice_filter_nochange lines (ce + 1) (idx - (ce + 1)) (by
        intro j hj1 hj2
        by_contra hne
        have ht : isChangeAt lines j = true := by
          cases hv : isChangeAt lines j
          · exact absurd hv hne
          · rfl
        have hm := hcomp j (by omega) ht
        simp only [List.mem_cons] at hm
        have hjlt : j < idx := by omega
        rcases hm with h | h
        · omega
        · have := (List.pairwise_cons.mp hpwrest).1 j h
          omega)]
      rw [List.append_nil]

theorem buildBlocks_length : ∀ (ks : List Nat) (cs ce : Nat),
    (buildBlocks cs ce ks).length = runCount (ce :: ks) := by
  intro ks
  induction ks with
  | nil =>
    intro cs ce
    rfl
  | cons idx rest ih =>
    intro cs ce
    rw [buildBlocks]
    by_cases h : idx = ce + 1
    · rw [if_pos h, ih cs idx, runCount, if_pos h]
      omega
    · rw [if_neg h]
      simp only [List.length_cons]
      rw [ih idx idx, runCount, if_neg h]
      omega

theorem isChangeAt_true_lt (lines : List DiffLine) (j : Nat)
    (h : isChangeAt lines j = true) : j < lines.length := by
  by_contra hge
  unfold isChangeAt at h
  rw [List.get?_eq_getElem?, List.getElem?_eq_none (by omega)] at h
  simp at h

theorem emitBlocks_filter (lines : List DiffLine)
    (hns : ∀ l ∈ lines, l.kind ≠ ChangeType.skipped) :
    ∀ (blocks : List (Nat × Nat)) (pl pr : Nat),
      (emitBlocks lines pl pr blocks).filter
          (fun l => decide (l.kind ≠ ChangeType.skipped)) =
        (blocks.map (fun be => (lines.drop be.1).take (be.2 + 1 - be.1))).join ∧
      (emitBlocks lines pl pr blocks).countP
          (fun l => decide (l.kind = ChangeType.skipped)) = blocks.length := by
  intro blocks
  induction blocks with
  | nil =>
    intro pl pr
    exact ⟨rfl, rfl⟩
  | cons be rest ih =>
    intro pl pr
    obtain ⟨s, e⟩ := be
    rw [emitBlocks]
    have hbm : ∀ x ∈ (lines.drop s).take (e + 1 - s), x.kind ≠ ChangeType.skipped :=
      fun x hx => hns x (List.mem_of_mem_drop (List.mem_of_mem_take hx))
    have hcond : (decide ((_make_hunk_header lines s e pl pr).kind ≠ ChangeType.skipped))
        = false := by
      rw [show (_make_hunk_header lines s e pl pr).kind = ChangeType.skipped from rfl]
      simp
    have hcond2 : (decide ((_make_hunk_header lines s e pl pr).kind = ChangeType.skipped))
        = true := by
      rw [show (_make_hunk_header lines s e pl pr).kind = ChangeType.skipped from rfl]
      simp
    constructor
    · rw [List.filter_append, List.filter_cons, hcond]
      simp only [Bool.false_eq_true, if_false]
      rw [List.filter_eq_self.mpr (fun a ha => by simpa using hbm a ha)]
      rw [(ih _ _).1]
      simp only [List.map_cons, List.join, List.flatten_cons]
    · rw [List.countP_append, List.countP_cons_of_pos]
      · rw [List.countP_eq_zero.mpr (fun a ha => by simpa using hbm a ha)]
        rw [(ih _ _).2]
        simp only [List.length_cons]
        omega
      · exact hcond2

theorem keepAt_zero (lines : List DiffLine) (ci : List Nat) (i : Nat) :
    keepAt lines 0 ci i = isChangeAt lines i := by
  unfold keepAt
  simp

/-- `_apply_context` with radius 0: the kept indices are exactly the
change indices, and the result is the per-run emission over them. -/
theorem apply_context_zero (lines : List DiffLine) :
    _apply_context lines (some 0) = Except.ok
      (match (List.range lines.length).filter (isChangeAt lines) with
       | [] => []
       | k :: ks => emitBlocks lines 0 0 (buildBlocks k k ks)) := by
  unfold _apply_context
  dsimp only
  rw [if_neg (show ¬ ((0 : Int) < 0) from by omega)]
  by_cases hemp : lines.isEmpty
  · rw [if_pos hemp]
    have h0 : lines = [] := by
      cases lines
      · rfl
      · simp at hemp
    subst h0
    rfl
  · rw [if_neg hemp]
    cases hci : (List.range lines.length).filter (isChangeAt lines) with
    | nil =>
      rfl
    | cons k ks =>
      rw [show (List.isEmpty (k :: ks)) = false from rfl]
      simp only [Bool.false_eq_true, if_false]
      have h1 : (List.range lines.length).filter
          (keepAt lines ((0 : Int).toNat) (k :: ks)) =
          (List.range lines.length).filter (isChangeAt lines) := by
        apply List.filter_congr'
        intro i _
        rw [show ((0 : Int).toNat) = 0 from rfl]
        exact keepAt_zero lines (k :: ks) i
      rw [h1, hci]

/-- Claim C6: context bounds.  With no context the line sequence is
returned unchanged; with any non-negative context a diff with no change
lines yields an empty sequence; with context 0 the result consists of
exactly the non-Unchanged lines (in order) plus one Skipped header per
maximal contiguous run of change positions. -/
theorem C6_context_bounds (lines : List DiffLine)
    (hns : ∀ l ∈ lines, l.kind ≠ ChangeType.skipped) :
    _apply_context lines none = Except.ok lines ∧
    (∀ c : Int, 0 ≤ c → (∀ l ∈ lines, l.kind = ChangeType.unchanged) →
      _apply_context lines (some c) = Except.ok []) ∧
    (∀ res, _apply_context lines (some 0) = Except.ok res →
      res.filter (fun l => decide (l.kind ≠ ChangeType.skipped)) =
        lines.filter (fun l => decide (l.kind ≠ ChangeType.unchanged)) ∧
      res.countP (fun l => decide (l.kind = ChangeType.skipped)) =
        runCount ((List.range lines.length).filter (isChangeAt lines))) := by
  refine ⟨rfl, ?_, ?_⟩
  · intro c hc hall
    unfold _apply_context
    dsimp only
    rw [if_neg (show ¬ (c < 0) from by omega)]
    by_cases hemp : lines.isEmpty
    · rw [if_pos hemp]
    · rw [if_neg hemp]
      have hci0 : (List.range lines.length).filter (isChangeAt lines) = [] := by
        apply List.filter_eq_nil_iff.mpr
        intro i hi
        have hlt : i < lines.length := List.mem_range.mp hi
        rw [isChangeAt_getElem lines i hlt]
        simp [hall _ (List.getElem_mem hlt)]
      rw [hci0]
      rfl
  · intro res hres
    rw [apply_context_zero lines] at hres
    cases hci : (List.range lines.length).filter (isChangeAt lines) with
    | nil =>
      rw [hci] at hres
      simp only [Except.ok.injEq] at hres
      subst hres
      constructor
      · symm
        apply List.filter_eq_nil_iff.mpr
        intro a ha
        obtain ⟨i, hi, hrfl⟩ := List.mem_iff_getElem.mp ha
        have hnc : isChangeAt lines i = false := by
          by_contra hne
          have ht : isChangeAt lines i = true := by
            cases hv : isChangeAt lines i
            · exact absurd hv hne
            · rfl
          have hm : i ∈ (List.range lines.length).filter (isChangeAt lines) :=
            List.mem_filter.mpr ⟨List.mem_range.mpr hi, ht⟩
          rw [hci] at hm
          simp at hm
        rw [isChangeAt_getElem lines i hi] at hnc
        rw [← hrfl]
        simpa using hnc
      · rfl
    | cons k ks =>
      rw [hci] at hres
      simp only [Except.ok.injEq] at hres
      subst hres
      have hmem : ∀ x, x ∈ k :: ks ↔ x < lines.length ∧ isChangeAt lines x = true := by
        intro x
        rw [← hci]
        simp [List.mem_filter, List.mem_range]
      have hpw : List.Pairwise (· < ·) (k :: ks) := by
        rw [← hci]
        exact (List.pairwise_lt_range _).filter _
      have hEB := emitBlocks_filter lines hns (buildBlocks k k ks) 0 0
      have hkchg : isChangeAt lines k = true := ((hmem k).mp (by simp)).2
      have hjoin := buildBlocks_join lines ks k k (le_refl k)
        (fun j hj1 hj2 => by
          have hjk : j = k := by omega
          rw [hjk]
          exact hkchg)
        hpw
        (fun x hx => ((hmem x).mp (by simp [hx])).2)
        (fun j hj1 hj2 => by
          have hm := (hmem j).mpr ⟨isChangeAt_true_lt lines j hj2, hj2⟩
          simp only [List.mem_cons] at hm
          rcases hm with h | h
          · omega
          · exact h)
      constructor
      · rw [hEB.1]
        simp only [List.join]
        simp only [List.join] at hjoin
        rw [hjoin]
        have hlow : ∀ j, j < k → isChangeAt lines j = false := by
          intro j hj
          by_contra hne
          have ht : isChangeAt lines j = true := by
            cases hv : isChangeAt lines j
            · exact absurd hv hne
            · rfl
          have hm := (hmem j).mpr ⟨isChangeAt_true_lt lines j ht, ht⟩
          simp only [List.mem_cons] at hm
          rcases hm with h | h
          · omega
          · have := (List.pairwise_cons.mp hpw).1 j h
            omega
        have htk : (lines.take k).filter
            (fun l => decide (l.kind ≠ ChangeType.unchanged)) = [] := by
          have hsl := slice_filter_nochange lines 0 k
            (fun j hj1 hj2 => hlow j (by omega))
          simpa [List.drop_zero] using hsl
        conv_rhs => rw [← List.take_append_drop k lines]
        rw [List.filter_append, htk, List.nil_append]
      · rw [hEB.2, buildBlocks_length]

theorem C6_context_bounds_witness :
    _apply_context
        [DiffLine.mk ChangeType.unchanged (some 1) (some 1) (some "a\n") (some "a\n") [],
         DiffLine.mk ChangeType.deleted (some 2) none (some "b\n") none [],
         DiffLine.mk ChangeType.unchanged (some 3) (some 2) (some "c\n") (some "c\n") []]
        none = Except.ok
        [DiffLine.mk ChangeType.unchanged (some 1) (some 1) (some "a\n") (some "a\n") [],
         DiffLine.mk ChangeType.deleted (some 2) none (some "b\n") none [],
         DiffLine.mk ChangeType.unchanged (some 3) (some 2) (some "c\n") (some "c\n") []] ∧
    _apply_context
        [DiffLine.mk ChangeType.unchanged (some 1) (some 1) (some "a\n") (some "a\n") []]
        (some 2) = Except.ok [] ∧
    ([DiffLine.mk ChangeType.skipped (some 2) (some 1) (some "@@ -2,1 +1,0 @@\n")
        (some "@@ -2,1 +1,0 @@\n") [],
      DiffLine.mk ChangeType.deleted (some 2) none (some "b\n") none []].filter
        (fun l => decide (l.kind ≠ ChangeType.skipped)) =
      [DiffLine.mk ChangeType.unchanged (some 1) (some 1) (some "a\n") (some "a\n") [],
       DiffLine.mk ChangeType.deleted (some 2) none (some "b\n") none [],
       DiffLine.mk ChangeType.unchanged (some 3) (some 2) (some "c\n") (some "c\n") []].filter
        (fun l => decide (l.kind ≠ ChangeType.unchanged)) ∧
     [DiffLine.mk ChangeType.skipped (some 2) (some 1) (some "@@ -2,1 +1,0 @@\n")
        (some "@@ -2,1 +1,0 @@\n") [],
      DiffLine.mk ChangeType.deleted (some 2) none (some "b\n") none []].countP
        (fun l => decide (l.kind = ChangeType.skipped)) =
      runCount ((List.range
          ([DiffLine.mk ChangeType.unchanged (some 1) (some 1) (some "a\n") (some "a\n") [],
            DiffLine.mk ChangeType.deleted (some 2) none (some "b\n") none [],
            DiffLine.mk ChangeType.unchanged (some 3) (some 2) (some "c\n") (some "c\n") []] :
            List DiffLine).length).filter
        (isChangeAt
          [DiffLine.mk ChangeType.unchanged (some 1) (some 1) (some "a\n") (some "a\n") [],
           DiffLine.mk ChangeType.deleted (some 2) none (some "b\n") none [],
           DiffLine.mk ChangeType.unchanged (some 3) (some 2) (some "c\n") (some "c\n") []]))) :=
  ⟨(C6_context_bounds
      [DiffLine.mk ChangeType.unchanged (some 1) (some 1) (some "a\n") (some "a\n") [],
       DiffLine.mk ChangeType.deleted (some 2) none (some "b\n") none [],
       DiffLine.mk ChangeType.unchanged (some 3) (some 2) (some "c\n") (some "c\n") []]
      (by decide)).1,
   (C6_context_bounds
      [DiffLine.mk ChangeType.unchanged (some 1) (some 1) (some "a\n") (some "a\n") []]
      (by decide)).2.1 2 (by decide) (by decide),
   (C6_context_bounds
      [DiffLine.mk ChangeType.unchanged (some 1) (some 1) (some "a\n") (some "a\n") [],
       DiffLine.mk ChangeType.deleted (some 2) none (some "b\n") none [],
       DiffLine.mk ChangeType.unchanged (some 3) (some 2) (some "c\n") (some "c\n") []]
      (by decide)).2.2
     [DiffLine.mk ChangeType.skipped (some 2) (some 1) (some "@@ -2,1 +1,0 @@\n")
        (some "@@ -2,1 +1,0 @@\n") [],
      DiffLine.mk ChangeType.deleted (some 2) none (some "b\n") none []] (by rfl)⟩

/-- The claim's hunk-header text: `@@ -L,l +R,r @@` plus a newline, where
`L`/`R` are the first left/right line numbers present in the block
(falling back to one past the previous block's last left/right line
number) and `l`/`r` count the block's lines carrying a left/right line
number. -/
def hunkHeaderTextSpec (block : List DiffLine) (prev_left prev_right : Nat) : String :=
  let lnums := block.filterMap (fun l => l.left_lineno)
  let rnums := block.filterMap (fun l => l.right_lineno)
  "@@ -" ++ toString (lnums.head?.getD (prev_left + 1)) ++ "," ++
    toString lnums.length ++ " +" ++
    toString (rnums.head?.getD (prev_right + 1)) ++ "," ++
    toString rnums.length ++ " @@\n"

/-- Claim C5: each block emitted by context windowing is preceded by
exactly one synthetic Skipped header line whose left and right texts are
both the claimed `@@ -L,l +R,r @@` marker for that block, and the
previous-line-number state threaded to the remaining blocks is the last
left/right line number present in the block (unchanged if absent). -/
theorem C5_hunk_header_per_block (lines : List DiffLine)
    (blocks : List (Nat × Nat)) (pl pr s e : Nat) :
    emitBlocks lines pl pr ((s, e) :: blocks) =
      DiffLine.mk ChangeType.skipped
        (some ((((lines.drop s).take (e + 1 - s)).filterMap
            (fun l => l.left_lineno)).head?.getD (pl + 1)))
        (some ((((lines.drop s).take (e + 1 - s)).filterMap
            (fun l => l.right_lineno)).head?.getD (pr + 1)))
        (some (hunkHeaderTextSpec ((lines.drop s).take (e + 1 - s)) pl pr))
        (some (hunkHeaderTextSpec ((lines.drop s).take (e + 1 - s)) pl pr)) [] ::
      ((lines.drop s).take (e + 1 - s)) ++
      emitBlocks lines
        ((((lines.drop s).take (e + 1 - s)).filterMap
            (fun l => l.left_lineno)).getLast?.getD pl)
        ((((lines.drop s).take (e + 1 - s)).filterMap
            (fun l => l.right_lineno)).getLast?.getD pr)
        blocks := by
  rw [emitBlocks]
  rfl

/-! ### Claim C8: segment shape invariant -/

/-- The claimed shape invariant: an Inserted segment has empty left text
and a Deleted segment has empty right text. -/
def segShapeOK (s : InlineDiffSegment) : Prop :=
  (s.kind = ChangeType.inserted → s.left_text = "") ∧
  (s.kind = ChangeType.deleted → s.right_text = "")

theorem inline_ops_shape (lt rt : List String) :
    ∀ ops, ∀ s ∈ inlineSegmentsOfOpcodes lt rt ops, segShapeOK s := by
  intro ops
  induction ops with
  | nil =>
    intro s hs
    rw [inlineSegmentsOfOpcodes] at hs
    simp at hs
  | cons op rest ih =>
    intro s hs
    rw [inlineSegmentsOfOpcodes] at hs
    rw [List.mem_append] at hs
    rcases hs with h | h
    · cases htag : op.tag <;> rw [htag] at h <;> dsimp only at h <;> split at h <;>
        simp only [List.mem_singleton, List.not_mem_nil] at h <;>
        first
          | exact absurd h (by simp)
          | (subst h
             constructor <;> intro hk <;> simp [_segment] at hk ⊢)
    · exact ih s h

theorem combine_segments_shape (a w b : InlineDiffSegment) :
    segShapeOK (_combine_segments a w b) := by
  unfold _combine_segments
  dsimp only
  constructor
  · intro hk
    dsimp only at hk ⊢
    by_cases h1 : (a.left_text ++ w.left_text ++ b.left_text) ≠ "" ∧
        (a.right_text ++ w.right_text ++ b.right_text) ≠ ""
    · rw [if_pos h1] at hk
      exact absurd hk (by decide)
    · rw [if_neg h1] at hk
      by_cases h2 : (a.left_text ++ w.left_text ++ b.left_text) ≠ ""
      · rw [if_pos h2] at hk
        exact absurd hk (by decide)
      · simpa using h2
  · intro hk
    dsimp only at hk ⊢
    by_cases h1 : (a.left_text ++ w.left_text ++ b.left_text) ≠ "" ∧
        (a.right_text ++ w.right_text ++ b.right_text) ≠ ""
    · rw [if_pos h1] at hk
      exact absurd hk (by decide)
    · rw [if_neg h1] at hk
      by_cases h2 : (a.left_text ++ w.left_text ++ b.left_text) ≠ ""
      · by_cases hr : (a.right_text ++ w.right_text ++ b.right_text) ≠ ""
        · exact absurd ⟨h2, hr⟩ h1
        · simpa using hr
      · rw [if_neg h2] at hk
        exact absurd hk (by decide)

theorem coalesceGo_shape :
    ∀ (rest : List InlineDiffSegment) (prev : InlineDiffSegment),
      segShapeOK prev → (∀ x ∈ rest, segShapeOK x) →
      ∀ s ∈ _coalesce_segments.coalesceGo prev rest, segShapeOK s := by
  intro rest
  induction rest with
  | nil =>
    intro prev hp _ s hs
    rw [_coalesce_segments.coalesceGo] at hs
    simp only [List.mem_singleton] at hs
    subst hs
    exact hp
  | cons s1 rest2 ih =>
    intro prev hp hr s hs
    rw [_coalesce_segments.coalesceGo] at hs
    split at hs
    · rename_i hkind
      apply ih _ _ (fun x hx => hr x (by simp [hx])) s hs
      constructor
      · intro hk
        simp only [_segment] at hk ⊢
        have hs1k : s1.kind = ChangeType.inserted := hk
        have hpk : prev.kind = ChangeType.inserted := by rw [← hkind]; exact hk
        rw [hp.1 hpk, (hr s1 (by simp)).1 hs1k]
        rfl
      · intro hk
        simp only [_segment] at hk ⊢
        have hs1k : s1.kind = ChangeType.deleted := hk
        have hpk : prev.kind = ChangeType.deleted := by rw [← hkind]; exact hk
        rw [hp.2 hpk, (hr s1 (by simp)).2 hs1k]
        rfl
    · simp only [List.mem_cons] at hs
      rcases hs with h | h
      · subst h
        exact hp
      · exact ih _ (hr s1 (by simp)) (fun x hx => hr x (by simp [hx])) s h

theorem coalesce_shape (segments : List InlineDiffSegment)
    (h : ∀ x ∈ segments, segShapeOK x) :
    ∀ s ∈ _coalesce_segments segments, segShapeOK s := by
  intro s hs
  unfold _coalesce_segments at hs
  match hm : segments with
  | [] =>
    simp at hs
  | s0 :: rest =>
    dsimp only at hs
    exact coalesceGo_shape rest s0 (h s0 (by simp))
      (fun x hx => h x (by simp [hx])) s hs

theorem mergeBridgesGo_shape (total : Nat) :
    ∀ (segs : List InlineDiffSegment) (i : Nat) (resRev : List InlineDiffSegment),
      (∀ x ∈ segs, segShapeOK x) → (∀ x ∈ resRev, segShapeOK x) →
      ∀ s ∈ mergeBridgesGo total segs i resRev, segShapeOK s := by
  intro segs i resRev
  induction segs, i, resRev using mergeBridgesGo.induct total with
  | case1 i resRev =>
    intro _ hres s hs
    rw [mergeBridgesGo] at hs
    rw [List.mem_reverse] at hs
    exact hres s hs
  | case2 seg next rest2 i prev resTail hcond ih =>
    intro hsegs hres s hs
    rw [mergeBridgesGo, if_pos hcond] at hs
    have hnew : ∀ x ∈ _combine_segments prev seg next :: resTail, segShapeOK x := by
      intro x hx
      rcases List.mem_cons.mp hx with h | h
      · rw [h]
        exact combine_segments_shape _ _ _
      · exact hres x (List.mem_cons_of_mem _ h)
    exact ih (fun x hx => hsegs x
      (List.mem_cons_of_mem _ (List.mem_cons_of_mem _ hx))) hnew s hs
  | case3 seg next rest2 i prev resTail hcond ih =>
    intro hsegs hres s hs
    rw [mergeBridgesGo, if_neg hcond] at hs
    have hnew : ∀ x ∈ seg :: prev :: resTail, segShapeOK x := by
      intro x hx
      rcases List.mem_cons.mp hx with h | h
      · rw [h]
        exact hsegs seg (by simp)
      · rcases List.mem_cons.mp h with h2 | h2
        · rw [h2]
          exact hres prev (by simp)
        · exact hres x (List.mem_cons_of_mem _ h2)
    exact ih (fun x hx => hsegs x (List.mem_cons_of_mem _ hx)) hnew s hs
  | case4 seg rest i resRev hshape ih =>
    intro hsegs hres s hs
    have heq : mergeBridgesGo total (seg :: rest) i resRev =
        mergeBridgesGo total rest (i + 1) (seg :: resRev) := by
      cases rest with
      | nil => rfl
      | cons next rest2 =>
        cases resRev with
        | nil => rfl
        | cons prev resTail => exact (hshape next rest2 prev resTail rfl rfl).elim
    rw [heq] at hs
    have hnew : ∀ x ∈ seg :: resRev, segShapeOK x := by
      intro x hx
      rcases List.mem_cons.mp hx with h | h
      · rw [h]
        exact hsegs seg (by simp)
      · exact hres x h
    exact ih (fun x hx => hsegs x (List.mem_cons_of_mem _ hx)) hnew s hs

theorem merge_bridges_shape (segments : List InlineDiffSegment)
    (h : ∀ x ∈ segments, segShapeOK x) :
    ∀ s ∈ _merge_whitespace_bridges segments, segShapeOK s := by
  intro s hs
  unfold _merge_whitespace_bridges at hs
  split at hs
  · exact h s hs
  · exact mergeBridgesGo_shape segments.length segments 0 [] h (by simp) s hs

/-- Claim C8: every inline segment produced by `diff_inline` satisfies the
shape invariant — Inserted segments have empty left text and Deleted
segments have empty right text — and the invariant survives coalescing
and the whitespace-bridge merge. -/
theorem C8_segment_shape (left right : String) :
    ∀ s ∈ diff_inline left right, segShapeOK s := by
  intro s hs
  unfold diff_inline at hs
  dsimp only at hs
  apply merge_bridges_shape _ ?_ s hs
  apply coalesce_shape
  intro x hx
  split at hx
  · rw [List.mem_append] at hx
    rcases hx with h | h
    · exact inline_ops_shape _ _ _ x h
    · simp only [List.mem_singleton] at h
      subst h
      constructor
      · intro hk
        simp only [_segment] at hk ⊢
        by_cases hl : (_strip_trailing_newline left).2
        · exfalso
          by_cases hr : (_strip_trailing_newline right).2
          · rw [if_pos ⟨hl, hr⟩] at hk
            exact absurd hk (by decide)
          · rw [if_neg (by simp [hr]), if_pos hl] at hk
            exact absurd hk (by decide)
        · rw [if_neg hl]
      · intro hk
        simp only [_segment] at hk ⊢
        by_cases hl : (_strip_trailing_newline left).2
        · by_cases hr : (_strip_trailing_newline right).2
          · rw [if_pos ⟨hl, hr⟩] at hk
            exact absurd hk (by decide)
          · rw [if_neg hr]
        · rw [if_neg (by simp [hl]), if_neg hl] at hk
          exact absurd hk (by decide)
  · exact inline_ops_shape _ _ _ x hx

theorem C8_segment_shape_witness :
    segShapeOK (InlineDiffSegment.mk ChangeType.edited "one" "two") :=
  C8_segment_shape "one" "two"
    (InlineDiffSegment.mk ChangeType.edited "one" "two") (by decide)

/-! ### Claim C2: reflexivity of the diff -/

section ReflexivityDevelopment

variable {α : Type} [DecidableEq α]

/-- For identical sequences, the value `j2len[j]` holds after processing
row `i`: the length of the common run of equal elements ending at
positions `i` and `j`. -/
def runLen (l : List α) : Nat → Nat → Nat
  | 0, j => if (l.get? 0).isSome ∧ l.get? 0 = l.get? j then 1 else 0
  | i + 1, 0 => if (l.get? (i + 1)).isSome ∧ l.get? (i + 1) = l.get? 0 then 1 else 0
  | i + 1, j + 1 =>
    if (l.get? (i + 1)).isSome ∧ l.get? (i + 1) = l.get? (j + 1) then runLen l i j + 1
    else 0

/-- The `j2len` function before processing row `i` (all zero before row 0). -/
def rowFun (l : List α) : Nat → Nat → Nat
  | 0, _ => 0
  | i + 1, m => runLen l i m

theorem runLen_le_left (l : List α) : ∀ i j, runLen l i j ≤ i + 1 := by
  intro i
  induction i with
  | zero =>
    intro j
    rw [runLen]
    split <;> omega
  | succ i ih =>
    intro j
    cases j with
    | zero =>
      rw [runLen]
      split <;> omega
    | succ j =>
      rw [runLen]
      split
      · have := ih j
        omega
      · omega

theorem runLen_le_right (l : List α) : ∀ i j, runLen l i j ≤ j + 1 := by
  intro i
  induction i with
  | zero =>
    intro j
    rw [runLen]
    split <;> omega
  | succ i ih =>
    intro j
    cases j with
    | zero =>
      rw [runLen]
      split <;> omega
    | succ j =>
      rw [runLen]
      split
      · have := ih j
        omega
      · omega

theorem get?_eq_some_of_lt (l : List α) (i : Nat) (h : i < l.length) :
    l.get? i = some (l[i]) := by
  rw [List.get?_eq_getElem?, List.getElem?_eq_getElem h]

theorem runLen_diag (l : List α) : ∀ i, i < l.length → runLen l i i = i + 1 := by
  intro i
  induction i with
  | zero =>
    intro h
    rw [runLen, if_pos ⟨by rw [get?_eq_some_of_lt l 0 h]; rfl, rfl⟩]
  | succ i ih =>
    intro h
    rw [runLen, if_pos ⟨by rw [get?_eq_some_of_lt l (i + 1) h]; rfl, rfl⟩]
    rw [ih (by omega)]

theorem runLen_eq_zero (l : List α) (i j : Nat)
    (h : ¬ ((l.get? i).isSome ∧ l.get? i = l.get? j)) : runLen l i j = 0 := by
  match i, j with
  | 0, j =>
    rw [runLen]
    exact if_neg h
  | i + 1, 0 =>
    rw [runLen]
    exact if_neg h
  | i + 1, j + 1 =>
    rw [runLen]
    exact if_neg h

theorem k_eq_runLen (l : List α) (i j : Nat) (hi : i < l.length)
    (heq : l.get? j = l.get? i) :
    (if j = 0 then 0 else rowFun l i (j - 1)) + 1 = runLen l i j := by
  have hsome : (l.get? i).isSome = true := by
    rw [get?_eq_some_of_lt l i hi]
    rfl
  cases j with
  | zero =>
    rw [if_pos rfl]
    cases i with
    | zero =>
      rw [runLen, if_pos ⟨hsome, heq.symm⟩]
    | succ i =>
      rw [runLen, if_pos ⟨hsome, heq.symm⟩]
  | succ j =>
    rw [if_neg (by omega)]
    cases i with
    | zero =>
      rw [show rowFun l 0 (j + 1 - 1) = 0 from rfl]
      rw [runLen, if_pos ⟨hsome, heq.symm⟩]
    | succ i =>
      rw [show rowFun l (i + 1) (j + 1 - 1) = runLen l i j from rfl]
      rw [runLen, if_pos ⟨hsome, heq.symm⟩]

theorem flm_inner_refl (l : List α) (i : Nat) (hi : i < l.length) :
    ∀ (js : List Nat) (best : FlmBest) (newj2len : Nat → Nat),
      (∀ j ∈ js, j < l.length ∧ l.get? j = l.get? i) →
      List.Pairwise (· < ·) js →
      ((best = FlmBest.mk 0 0 i ∧ i ∈ js) ∨
        (best = FlmBest.mk 0 0 (i + 1) ∧ ∀ j ∈ js, i < j)) →
      (flm_inner 0 l.length i (rowFun l i) js best newj2len).1 =
        FlmBest.mk 0 0 (i + 1) ∧
      ∀ m, (flm_inner 0 l.length i (rowFun l i) js best newj2len).2 m =
        if m ∈ js then runLen l i m else newj2len m := by
  intro js
  induction js with
  | nil =>
    intro best newj2len h1 h2 h3
    rcases h3 with ⟨hb, hmem⟩ | ⟨hb, _⟩
    · simp at hmem
    · rw [flm_inner]
      exact ⟨hb, fun m => by simp⟩
  | cons j js ih =>
    intro best newj2len h1 h2 h3
    obtain ⟨hjn, hjeq⟩ := h1 j (by simp)
    have hk : (if j = 0 then 0 else rowFun l i (j - 1)) + 1 = runLen l i j :=
      k_eq_runLen l i j hi hjeq
    have hpwt : List.Pairwise (fun x1 x2 => x1 < x2) js :=
      (List.pairwise_cons.mp h2).2
    have hjlt : ∀ y ∈ js, j < y := (List.pairwise_cons.mp h2).1
    have h1t : ∀ y ∈ js, y < l.length ∧ l.get? y = l.get? i :=
      fun y hy => h1 y (by simp [hy])
    rw [flm_inner]
    rw [if_neg (show ¬ j < 0 from by omega)]
    rw [if_neg (show ¬ l.length ≤ j from by omega)]
    dsimp only
    rw [hk]
    rcases h3 with ⟨hb, hmem⟩ | ⟨hb, hgt⟩
    · by_cases hij : j = i
      · subst hij
        rw [runLen_diag l j hi]
        rw [hb]
        rw [if_pos (show (FlmBest.mk 0 0 j).bestsize < j + 1 from by dsimp only; omega)]
        rw [show j + 1 - (j + 1) = 0 from by omega]
        have hrec := ih (FlmBest.mk 0 0 (j + 1))
          (fun m => if m = j then j + 1 else newj2len m) h1t hpwt
          (Or.inr ⟨rfl, hjlt⟩)
        refine ⟨hrec.1, ?_⟩
        intro m
        rw [hrec.2 m]
        by_cases hm1 : m ∈ js
        · simp [hm1]
        · by_cases hm2 : m = j
          · subst hm2
            simp [hm1, runLen_diag l m hi]
          · simp [hm1, hm2]
      · have him : i ∈ js := by
          rcases List.mem_cons.mp hmem with h | h
          · exact absurd h.symm hij
          · exact h
        have hji : j < i := hjlt i him
        have hKle : runLen l i j ≤ i := by
          have := runLen_le_right l i j
          omega
        rw [hb]
        rw [if_neg (show ¬ (FlmBest.mk 0 0 i).bestsize < runLen l i j from by
          dsimp only; omega)]
        have hrec := ih (FlmBest.mk 0 0 i)
          (fun m => if m = j then runLen l i j else newj2len m) h1t hpwt
          (Or.inl ⟨rfl, him⟩)
        refine ⟨hrec.1, ?_⟩
        intro m
        rw [hrec.2 m]
        by_cases hm1 : m ∈ js
        · simp [hm1]
        · by_cases hm2 : m = j
          · subst hm2
            simp [hm1]
          · simp [hm1, hm2]
    · have hji : i < j := hgt j (by simp)
      have hKle : runLen l i j ≤ i + 1 := runLen_le_left l i j
      rw [hb]
      rw [if_neg (show ¬ (FlmBest.mk 0 0 (i + 1)).bestsize < runLen l i j from by
        dsimp only; omega)]
      have hrec := ih (FlmBest.mk 0 0 (i + 1))
        (fun m => if m = j then runLen l i j else newj2len m) h1t hpwt
        (Or.inr ⟨rfl, fun y hy => hgt y (by simp [hy])⟩)
      refine ⟨hrec.1, ?_⟩
      intro m
      rw [hrec.2 m]
      by_cases hm1 : m ∈ js
      · simp [hm1]
      · by_cases hm2 : m = j
        · subst hm2
          simp [hm1]
        · simp [hm1, hm2]

theorem flm_main_refl (l : List α) :
    ∀ (fuel i : Nat) (j2len : Nat → Nat) (best : FlmBest),
      i + fuel = l.length →
      (∀ m, j2len m = rowFun l i m) →
      best = FlmBest.mk 0 0 i →
      flm_main l l 0 l.length fuel i l.length j2len best =
        FlmBest.mk 0 0 l.length := by
  intro fuel
  induction fuel with
  | zero =>
    intro i j2len best hi hj2 hb
    rw [flm_main, hb, show i = l.length from by omega]
  | succ fuel ih =>
    intro i j2len best hi hj2 hb
    have hlt : i < l.length := by omega
    rw [flm_main, if_pos hlt]
    dsimp only
    rw [get?_eq_some_of_lt l i hlt]
    dsimp only
    have hfe : j2len = rowFun l i := funext hj2
    rw [hfe]
    have hmem : ∀ x, x ∈ b2j l (l[i]) ↔ (x < l.length ∧ l.get? x = some (l[i])) := by
      intro x
      unfold b2j
      simp [List.mem_filter, List.mem_range]
    have h1 : ∀ y ∈ b2j l (l[i]), y < l.length ∧ l.get? y = l.get? i := by
      intro y hy
      have hm := (hmem y).mp hy
      exact ⟨hm.1, by rw [hm.2, get?_eq_some_of_lt l i hlt]⟩
    have hpw : List.Pairwise (· < ·) (b2j l (l[i])) :=
      (List.pairwise_lt_range _).filter _
    have hin : i ∈ b2j l (l[i]) := (hmem i).mpr ⟨hlt, get?_eq_some_of_lt l i hlt⟩
    have hinner := flm_inner_refl l i hlt (b2j l (l[i])) best (fun _ => 0) h1 hpw
      (Or.inl ⟨hb, hin⟩)
    refine ih (i + 1) _ _ (by omega) ?_ hinner.1
    intro m
    rw [hinner.2 m]
    show (if m ∈ b2j l (l[i]) then runLen l i m else 0) = runLen l i m
    by_cases hm : m ∈ b2j l (l[i])
    · rw [if_pos hm]
    · rw [if_neg hm]
      symm
      apply runLen_eq_zero
      intro hcond
      obtain ⟨hsome, heq⟩ := hcond
      have hgm : l.get? m = some (l[i]) := by
        rw [← heq, get?_eq_some_of_lt l i hlt]
      have hmlt : m < l.length := by
        by_contra hge
        rw [List.get?_eq_getElem?, List.getElem?_eq_none (by omega)] at hgm
        simp at hgm
      exact hm ((hmem m).mpr ⟨hmlt, hgm⟩)

theorem find_longest_match_refl (l : List α) :
    find_longest_match l l 0 l.length 0 l.length = FlmBest.mk 0 0 l.length := by
  unfold find_longest_match
  dsimp only
  rw [flm_main_refl l (l.length - 0) 0 (fun _ => 0) (FlmBest.mk 0 0 0)
    (by omega) (fun m => rfl) rfl]
  rw [show (FlmBest.mk 0 0 l.length).besti - 0 = 0 from rfl]
  rw [show flm_ext_left l l 0 0 0 (FlmBest.mk 0 0 l.length) =
    FlmBest.mk 0 0 l.length from rfl]
  rw [show l.length - ((FlmBest.mk 0 0 l.length).besti +
      (FlmBest.mk 0 0 l.length).bestsize) = 0 from by dsimp only; omega]
  rw [show flm_ext_right l l l.length l.length 0 (FlmBest.mk 0 0 l.length) =
    FlmBest.mk 0 0 l.length from rfl]
  rw [show (FlmBest.mk 0 0 l.length).besti - 0 = 0 from rfl]
  rw [show flm_ext_left_junk l l 0 0 0 (FlmBest.mk 0 0 l.length) =
    FlmBest.mk 0 0 l.length from rfl]
  rw [show l.length - ((FlmBest.mk 0 0 l.length).besti +
      (FlmBest.mk 0 0 l.length).bestsize) = 0 from by dsimp only; omega]
  rw [show flm_ext_right_junk l l l.length l.length 0 (FlmBest.mk 0 0 l.length) =
    FlmBest.mk 0 0 l.length from rfl]

theorem gmbGo_nil (l : List α) : ∀ fuel, gmbGo l l fuel [] = [] := by
  intro fuel
  cases fuel with
  | zero => rfl
  | succ f => rfl

theorem get_opcodes_refl (l : List α) :
    get_opcodes l l =
      if l.length = 0 then []
      else [Opcode.mk OpTag.equal 0 l.length 0 l.length] := by
  unfold get_opcodes get_matching_blocks gmb_queue
  rw [show queueMeasure [(0, l.length, 0, l.length)] = l.length + l.length + 1 from by
    simp [queueMeasure]]
  rw [gmbGo]
  rw [find_longest_match_refl l]
  by_cases hn : l.length = 0
  · rw [if_neg (show ¬ 0 < (FlmBest.mk 0 0 l.length).bestsize from by
      dsimp only; omega)]
    rw [gmbGo_nil]
    rw [if_pos hn]
    rw [show sortMBlocks [] = [] from rfl, show collapseAdj 0 0 0 [] = [] from by
      rw [collapseAdj]; simp]
    rw [List.nil_append]
    rw [opcodesGo]
    rw [if_neg (show ¬ (0 < (MBlock.mk l.length l.length 0).i ∧
        0 < (MBlock.mk l.length l.length 0).j) from by dsimp only; omega)]
    rw [if_neg (show ¬ 0 < (MBlock.mk l.length l.length 0).i from by
      dsimp only; omega)]
    rw [if_neg (show ¬ 0 < (MBlock.mk l.length l.length 0).j from by
      dsimp only; omega)]
    rw [if_neg (show ¬ 0 < (MBlock.mk l.length l.length 0).size from by
      dsimp only; omega)]
    rw [opcodesGo]
    simp
  · have hpos : 0 < l.length := Nat.pos_of_ne_zero hn
    rw [if_pos (show 0 < (FlmBest.mk 0 0 l.length).bestsize from by
      dsimp only; omega)]
    have hpush : gmbPushes 0 l.length 0 l.length (FlmBest.mk 0 0 l.length) = [] := by
      unfold gmbPushes
      rw [if_neg (show ¬ ((FlmBest.mk 0 0 l.length).besti +
          (FlmBest.mk 0 0 l.length).bestsize < l.length ∧
          (FlmBest.mk 0 0 l.length).bestj +
          (FlmBest.mk 0 0 l.length).bestsize < l.length) from by dsimp only; omega)]
      rw [if_neg (show ¬ ((0:Nat) < (FlmBest.mk 0 0 l.length).besti ∧
          (0:Nat) < (FlmBest.mk 0 0 l.length).bestj) from by dsimp only; omega)]
      rfl
    rw [hpush]
    rw [List.nil_append]
    rw [gmbGo_nil]
    rw [if_neg hn]
    rw [show sortMBlocks [MBlock.mk 0 0 l.length] = [MBlock.mk 0 0 l.length] from rfl]
    rw [collapseAdj]
    rw [if_pos (show (0:Nat) + 0 = (MBlock.mk 0 0 l.length).i ∧
        (0:Nat) + 0 = (MBlock.mk 0 0 l.length).j from by dsimp only; omega)]
    rw [collapseAdj]
    rw [if_pos (show (0:Nat) + (MBlock.mk 0 0 l.length).size ≠ 0 from by
      dsimp only; omega)]
    dsimp only
    rw [show (0:Nat) + l.length = l.length from by omega]
    rw [List.singleton_append]
    rw [opcodesGo]
    rw [if_neg (show ¬ ((0:Nat) < (MBlock.mk 0 0 l.length).i ∧
        (0:Nat) < (MBlock.mk 0 0 l.length).j) from by dsimp only; omega)]
    rw [if_neg (show ¬ (0:Nat) < (MBlock.mk 0 0 l.length).i from by
      dsimp only; omega)]
    rw [if_neg (show ¬ (0:Nat) < (MBlock.mk 0 0 l.length).j from by
      dsimp only; omega)]
    rw [if_pos (show (0:Nat) < (MBlock.mk 0 0 l.length).size from by
      dsimp only; omega)]
    dsimp only
    rw [opcodesGo]
    rw [if_neg (show ¬ ((0:Nat) + l.length < (MBlock.mk l.length l.length 0).i ∧
        (0:Nat) + l.length < (MBlock.mk l.length l.length 0).j) from by
      dsimp only; omega)]
    rw [if_neg (show ¬ (0:Nat) + l.length < (MBlock.mk l.length l.length 0).i from by
      dsimp only; omega)]
    rw [if_neg (show ¬ (0:Nat) + l.length < (MBlock.mk l.length l.length 0).j from by
      dsimp only; omega)]
    rw [if_neg (show ¬ (0:Nat) < (MBlock.mk l.length l.length 0).size from by
      dsimp only; omega)]
    rw [opcodesGo]
    simp

theorem diff_normalized_none (L R : NormalizedDocument) (cfg : Option InlineDiffConfig) :
    diff_normalized L R cfg none = Except.ok (DiffResult.mk L R
      (((get_opcodes L.lines R.lines).map (fun op =>
        match op.tag with
        | OpTag.equal => _build_unchanged_lines L R op.i1 op.i2 op.j1
        | OpTag.delete => _build_deleted_lines L op.i1 op.i2
        | OpTag.insert => _build_inserted_lines R op.j1 op.j2
        | OpTag.replace =>
          _build_replaced_lines L R op.i1 op.i2 op.j1 op.j2 cfg)).join)
      none) := rfl

theorem diff_normalized_refl_core (L R : NormalizedDocument)
    (cfg : Option InlineDiffConfig) (h : L.lines = R.lines) :
    ∀ res, diff_normalized L R cfg none = Except.ok res →
      (∀ dl ∈ res.lines, dl.kind = ChangeType.unchanged) ∧
      res.has_changes = false := by
  intro res hres
  rw [diff_normalized_none] at hres
  simp only [Except.ok.injEq] at hres
  subst hres
  have hall : ∀ dl ∈ (DiffResult.mk L R
      (((get_opcodes L.lines R.lines).map (fun op =>
        match op.tag with
        | OpTag.equal => _build_unchanged_lines L R op.i1 op.i2 op.j1
        | OpTag.delete => _build_deleted_lines L op.i1 op.i2
        | OpTag.insert => _build_inserted_lines R op.j1 op.j2
        | OpTag.replace =>
          _build_replaced_lines L R op.i1 op.i2 op.j1 op.j2 cfg)).join)
      none).lines, dl.kind = ChangeType.unchanged := by
    intro dl hdl
    dsimp only at hdl
    rw [← h] at hdl
    rw [get_opcodes_refl] at hdl
    by_cases hn : L.lines.length = 0
    · rw [if_pos hn] at hdl
      simp at hdl
    · rw [if_neg hn] at hdl
      simp only [List.map_cons, List.map_nil, List.join, List.flatten_cons,
        List.flatten_nil, List.append_nil] at hdl
      unfold _build_unchanged_lines at hdl
      simp only [List.mem_map] at hdl
      obtain ⟨o, _, hrfl⟩ := hdl
      rw [← hrfl]
  refine ⟨hall, ?_⟩
  unfold DiffResult.has_changes
  rw [List.any_eq_false]
  intro dl hdl
  have := hall dl hdl
  simp [this]

end ReflexivityDevelopment

/-- Claim C2: the diff is reflexive.  For any input — raw text or an
already-normalized document — diffing it against itself (with the default
`context = None`) yields a result whose lines are all Unchanged and whose
`has_changes` is false. -/
theorem C2_diff_reflexive (x : Sum String NormalizedDocument)
    (lid rid : String) (cfg : Option InlineDiffConfig) :
    ∀ res, diff x x lid rid cfg none = Except.ok res →
      (∀ dl ∈ res.lines, dl.kind = ChangeType.unchanged) ∧
      res.has_changes = false := by
  intro res hres
  cases x with
  | inl s =>
    unfold diff at hres
    dsimp only at hres
    exact diff_normalized_refl_core (normalizeText s lid) (normalizeText s rid) cfg
      rfl res hres
  | inr d =>
    unfold diff at hres
    dsimp only at hres
    exact diff_normalized_refl_core d d cfg rfl res hres

theorem C2_diff_reflexive_witness :
    (∀ dl ∈ (DiffResult.mk (normalizeText "hi\n" "left") (normalizeText "hi\n" "right")
        [DiffLine.mk ChangeType.unchanged (some 1) (some 1) (some "hi\n") (some "hi\n") []]
        none).lines, dl.kind = ChangeType.unchanged) ∧
    (DiffResult.mk (normalizeText "hi\n" "left") (normalizeText "hi\n" "right")
        [DiffLine.mk ChangeType.unchanged (some 1) (some 1) (some "hi\n") (some "hi\n") []]
        none).has_changes = false :=
  C2_diff_reflexive (Sum.inl "hi\n") "left" "right" none
    (DiffResult.mk (normalizeText "hi\n" "left") (normalizeText "hi\n" "right")
      [DiffLine.mk ChangeType.unchanged (some 1) (some 1) (some "hi\n") (some "hi\n") []]
      none)
    (by rfl)

end Mddiff
